import Mathlib

/-!
Verification development for the kb-engine repository.

This file gives a shallow embedding, in Lean 4, of the parts of kb-engine
that the specification's checkable sentences are about:

* `kb_engine/utils/markdown.py` — heading-anchor generation;
* `kb_engine/git/url_resolver.py` — URL resolution and remote normalization;
* `kb_engine/git/scanner.py` — include/exclude glob filtering and sorting;
* `kb_engine/repositories/graph/sqlite.py` — node lookup, similarity,
  bounded traversal (the SQL statements are modelled by their semantics on
  the stored node/edge lists, in insertion order, as SQLite evaluates them);
* `kb_engine/pipelines/indexation/pipeline.py` — the per-document indexing
  state machine and the incremental repository sync;
* `kb_engine/pipelines/inference/pipeline.py` — reciprocal-rank-fusion
  deduplication for hybrid retrieval.

Modelling conventions.  Python strings are Lean `String`s and all character
processing is done on their `List Char` data (exact for the ASCII range the
verified statements use).  UUIDs are modelled as `Nat`.  Python floats are
modelled as `ℚ` (the fusion arithmetic is exact rank arithmetic).  External
collaborators (chunker, embedding provider, extraction engine, unicode
normalization, git subprocess output, the filesystem) are oracle parameters:
structures of functions an environment supplies.  Store writes are modelled
as total state transformations; collaborator calls may fail (`Except`),
mirroring the `try/except` structure of the pipeline.
-/

namespace KB

/-! ## Python-string primitives (char-list based, kernel-computable) -/

/-- Boolean test that `p` is a prefix of `l` (models `str.startswith` and
anchored regex matching on the character level). -/
def startsWithB (l p : List Char) : Bool :=
  match p, l with
  | [], _ => true
  | _ :: _, [] => false
  | pc :: ps, c :: cs => c = pc && startsWithB cs ps

/-- Boolean test that `suf` is a suffix of `l` (models `str.endswith`). -/
def endsWithB (l suf : List Char) : Bool :=
  startsWithB l.reverse suf.reverse

/-- Lexicographic code-point order on strings, exactly Python's `<=` used by
`sorted` on `str` lists. -/
def pyStrLeB (a b : String) : Bool :=
  go a.data b.data
where
  go : List Char → List Char → Bool
    | [], _ => true
    | _ :: _, [] => false
    | a :: as, b :: bs => if a = b then go as bs else decide (a < b)

/-- The sort relation used to model Python's `sorted` on strings. -/
def pyStrLe (a b : String) : Prop := pyStrLeB a b = true

instance : DecidableRel pyStrLe := fun a b => by unfold pyStrLe; infer_instance

/-- Python `sorted` over strings: stable ascending sort.  (Stability is
irrelevant here: the order is total and antisymmetric on the sort keys.) -/
def pySorted (l : List String) : List String :=
  List.insertionSort pyStrLe l

/-! ## `kb_engine/utils/markdown.py` — anchors -/

/-- Python's `\s` character class, restricted to the ASCII range. -/
def pyIsSpace (c : Char) : Bool :=
  c = ' ' || c = '\t' || c = '\n' || c = '\r' || c = '\x0b' || c = '\x0c'

/-- Python's `\w` character class, restricted to the ASCII range: letters,
digits, and the underscore. -/
def pyIsWordChar (c : Char) : Bool :=
  c.isAlphanum || c = '_'

/-- One pass of `re.sub(r"[\s]+", "-", text)`: every maximal run of
whitespace becomes a single hyphen.  `inRun` records whether the previous
character was part of a whitespace run. -/
def collapseSpacesGo : Bool → List Char → List Char
  | _, [] => []
  | inRun, c :: rest =>
    if pyIsSpace c then
      if inRun then collapseSpacesGo true rest
      else '-' :: collapseSpacesGo true rest
    else c :: collapseSpacesGo false rest

def collapseSpaces (l : List Char) : List Char :=
  collapseSpacesGo false l

/-- Python `str.strip("-")`. -/
def stripHyphens (l : List Char) : List Char :=
  ((l.dropWhile (fun c => c = '-')).reverse.dropWhile (fun c => c = '-')).reverse

/-- `heading_to_anchor` from `kb_engine/utils/markdown.py`.  The
`unicodedata.normalize("NFKD", ·)` call is the external `nfkd` parameter
(it is the identity on ASCII text); the remaining steps — lowercase, keep
only `\w`, `\s` and `-`, collapse whitespace runs to single hyphens, strip
leading/trailing hyphens — are modelled exactly. -/
def heading_to_anchor (nfkd : String → String) (heading : String) : String :=
  let text := (nfkd heading).data
  let lowered := text.map Char.toLower
  let kept := lowered.filter (fun c => pyIsWordChar c || pyIsSpace c || c = '-')
  String.mk (stripHyphens (collapseSpaces kept))

/-- `heading_path_to_anchor` from `kb_engine/utils/markdown.py`: anchor of
the last (most specific) heading, `none` for an empty path. -/
def heading_path_to_anchor (nfkd : String → String) (heading_path : List String) : Option String :=
  match heading_path.getLast? with
  | none => none
  | some h => some (heading_to_anchor nfkd h)

/-- The anchor computation exactly as the specification words it: "normalize
to remove diacritics, lowercase, strip all characters except
letters/digits/whitespace/hyphen, collapse whitespace runs to single
hyphens, trim leading/trailing hyphens".  Note: letters and digits only —
no underscore. -/
def specHeadingAnchor (nfkd : String → String) (heading : String) : String :=
  let text := (nfkd heading).data
  let lowered := text.map Char.toLower
  let kept := lowered.filter (fun c => c.isAlphanum || pyIsSpace c || c = '-')
  String.mk (stripHyphens (collapseSpaces kept))

/-- The anchor computation as amended: characters other than letters,
digits, underscores, whitespace and hyphens are stripped (the `\w` class
keeps the underscore); the other steps are as the specification words them. -/
def amendedHeadingAnchor (nfkd : String → String) (heading : String) : String :=
  let text := (nfkd heading).data
  let lowered := text.map Char.toLower
  let kept := lowered.filter (fun c => (c.isAlphanum || c = '_') || pyIsSpace c || c = '-')
  String.mk (stripHyphens (collapseSpaces kept))

/-! ## `kb_engine/git/url_resolver.py` -/

/-- `RepositoryConfig` from `kb_engine/core/models/repository.py`. -/
structure RepositoryConfig where
  name : String
  local_path : String
  remote_url : Option String := none
  branch : String := "main"
  include_patterns : List String := ["**/*.md"]
  exclude_patterns : List String := []
  base_url_template : Option String := none
deriving Repr, DecidableEq

/-- Python truthiness of an optional string: `None` and `""` are falsy. -/
def optTruthy : Option String → Bool
  | none => false
  | some s => !(s = "")

/-- `re.sub(r"\.git$", "", url)`: strip one trailing `.git`. -/
def dropGitSuffix (url : String) : String :=
  let cs := url.data
  if endsWithB cs ".git".data then String.mk (cs.take (cs.length - 4)) else url

/-- `re.match(r"git@([^:]+):(.+)", url)` followed by
`https://{host}/{path}`: the SSH-to-HTTPS conversion branch of
`_normalize_remote_url`.  `[^:]+` takes the (non-empty) run up to the first
colon; `(.+)` takes the (non-empty) remainder up to a newline, if any
(`.` does not match `\n` and `re.match` does not anchor at the end). -/
def sshConvert (url : String) : Option String :=
  let cs := url.data
  if startsWithB cs "git@".data then
    let rest := cs.drop 4
    let host := rest.takeWhile (fun c => c ≠ ':')
    if host.length = 0 then none
    else if rest.length = host.length then none
    else
      let path := (rest.drop (host.length + 1)).takeWhile (fun c => c ≠ '\n')
      if path.length = 0 then none
      else some (String.mk ("https://".data ++ host ++ '/' :: path))
  else none

/-- `URLResolver._normalize_remote_url`. -/
def normalize_remote_url (url : String) : String :=
  let u := dropGitSuffix url
  match sshConvert u with
  | some v => v
  | none => u

/-- A `URLResolver` instance: its configuration together with
`Path(config.local_path).resolve()`, which depends on the filesystem and is
therefore carried as the pre-resolved absolute path string `repo_path`. -/
structure URLResolver where
  config : RepositoryConfig
  repo_path : String

/-- `pathlib` `/`-join for the cases arising here: an absolute right operand
replaces the base, otherwise the paths are joined with a separator. -/
def pyPathJoin (base rel : String) : String :=
  if startsWithB rel.data ['/'] then rel else base ++ "/" ++ rel

/-- Append `#anchor` when the anchor is truthy (`if anchor:`). -/
def appendAnchor (url : String) (anchor : Option String) : String :=
  match anchor with
  | some a => if a = "" then url else url ++ "#" ++ a
  | none => url

/-- `URLResolver._resolve_local`. -/
def resolve_local (r : URLResolver) (relative_path : String) (anchor : Option String) : String :=
  appendAnchor ("file://" ++ pyPathJoin r.repo_path relative_path) anchor

/-- `URLResolver._resolve_remote`. -/
def resolve_remote (r : URLResolver) (relative_path : String) (anchor : Option String) : String :=
  let base := normalize_remote_url (r.config.remote_url.getD "")
  appendAnchor (base ++ "/blob/" ++ r.config.branch ++ "/" ++ relative_path) anchor

/-- Python `str.replace` (all non-overlapping occurrences, left to right). -/
def replaceAllGo (pat rep : List Char) : List Char → List Char
  | [] => []
  | c :: rest =>
    if pat ≠ [] ∧ startsWithB (c :: rest) pat = true then
      rep ++ replaceAllGo pat rep (rest.drop (pat.length - 1))
    else c :: replaceAllGo pat rep rest
termination_by l => l.length
decreasing_by
  · simpa [List.length_drop] using Nat.lt_succ_of_le (Nat.sub_le _ _)
  · simp

def pyReplace (s pat rep : String) : String :=
  String.mk (replaceAllGo pat.data rep.data s.data)

/-- `URLResolver._resolve_template`. -/
def resolve_template (r : URLResolver) (relative_path : String) (anchor : Option String) : String :=
  let template := r.config.base_url_template.getD ""
  let remote := normalize_remote_url (r.config.remote_url.getD "")
  let url := pyReplace template "{remote}" remote
  let url := pyReplace url "{branch}" r.config.branch
  let url := pyReplace url "{path}" relative_path
  appendAnchor url anchor

/-- `URLResolver.resolve`: template if configured (and truthy), else remote,
else local `file://`. -/
def resolve (r : URLResolver) (relative_path : String) (anchor : Option String) : String :=
  if optTruthy r.config.base_url_template then resolve_template r relative_path anchor
  else if optTruthy r.config.remote_url then resolve_remote r relative_path anchor
  else resolve_local r relative_path anchor

/-! ## `kb_engine/git/scanner.py` -/

/-- One path/pattern component matched by `fnmatch` as `PurePath.match`
uses it: `*` matches any run (tried against every suffix of the component),
`?` any single character, other characters literally.  (`**` is two stars,
which match exactly like one; no configured pattern of this repository uses
`[...]` character classes, so they are not modelled.)  First argument is
the pattern component, second the path component. -/
def fnmatchComp : List Char → List Char → Bool
  | [], s => s.isEmpty
  | p :: ps, s =>
    if p = '*' then s.tails.any (fun t => fnmatchComp ps t)
    else
      match s with
      | [] => false
      | c :: ss => (p = '?' || p = c) && fnmatchComp ps ss

/-- Split a character list on a separator (helper for path components). -/
def splitGo (sep : Char) : List Char → List Char → List (List Char)
  | acc, [] => [acc.reverse]
  | acc, c :: rest =>
    if c = sep then acc.reverse :: splitGo sep [] rest
    else splitGo sep (c :: acc) rest

/-- `PurePosixPath(...).parts` for the relative paths arising here: split on
`/`, dropping empty and `.` components. -/
def pathParts (s : String) : List String :=
  ((splitGo '/' [] s.data).map String.mk).filter (fun comp => !(comp = "") && !(comp = "."))

/-- `PurePath.match(pattern)` for a relative pattern: the pattern components
must match the final components of the path, one `fnmatch` component each;
an empty pattern never matches. -/
def pathMatch (filepath pattern : String) : Bool :=
  let fparts := pathParts filepath
  let pparts := pathParts pattern
  !pparts.isEmpty && pparts.length ≤ fparts.length &&
    ((fparts.drop (fparts.length - pparts.length)).zip pparts).all
      (fun pr => fnmatchComp pr.2.data pr.1.data)

/-- `GitRepoScanner._match_pattern`: try `Path.match`, and for a pattern
with a `**/` prefix also try the pattern without that prefix (so root-level
files match too). -/
def match_pattern (filepath pattern : String) : Bool :=
  pathMatch filepath pattern ||
    (startsWithB pattern.data "**/".data && pathMatch filepath (String.mk (pattern.data.drop 3)))

/-- `GitRepoScanner._filter_files`: keep files matching at least one include
pattern and no exclude pattern, then sort. -/
def filter_files (config : RepositoryConfig) (files : List String) : List String :=
  pySorted (files.filter (fun filepath =>
    (config.include_patterns.any (fun pattern => match_pattern filepath pattern)) &&
    !(config.exclude_patterns.any (fun pattern => match_pattern filepath pattern))))

/-- The scanner's external world: git subprocess results and the filesystem.
`none` models a `CalledProcessError` (or, for `read_file`, an IO error such
as the file being absent from the working tree). -/
structure ScannerEnv where
  repo_path : String
  current_commit : String
  remote_origin : Option String := none
  ls_files : Option (List String) := some []
  rglob_files : List String := []
  diff_since : String → Option (List String) := fun _ => some []
  diff_deleted_since : String → Option (List String) := fun _ => some []
  read_file : String → Option String := fun _ => none

/-- `GitRepoScanner.scan_files`: `git ls-files`, falling back to a
filesystem walk, both run through `_filter_files`. -/
def scan_files (env : ScannerEnv) (config : RepositoryConfig) : List String :=
  match env.ls_files with
  | some output => filter_files config output
  | none => filter_files config env.rglob_files

/-- `GitRepoScanner.get_changed_files`: `git diff --name-only`, falling back
to all scanned files on error. -/
def get_changed_files (env : ScannerEnv) (config : RepositoryConfig) (since_commit : String) :
    List String :=
  match env.diff_since since_commit with
  | some output => filter_files config output
  | none => scan_files env config

/-- `GitRepoScanner.get_deleted_files`: `git diff --name-only
--diff-filter=D`, falling back to the empty list on error. -/
def get_deleted_files (env : ScannerEnv) (config : RepositoryConfig) (since_commit : String) :
    List String :=
  match env.diff_deleted_since since_commit with
  | some output => filter_files config output
  | none => []

/-! ## `kb_engine/repositories/graph/sqlite.py` -/

/-- A graph node row (`graph_nodes`).  Fields not inspected by any verified
statement (description, properties, confidence, extraction method,
timestamps) are omitted; UUIDs are `Nat`. -/
structure Node where
  id : Nat
  name : String
  node_type : String
  source_document_id : Option Nat := none
deriving Repr, DecidableEq

/-- A graph edge row (`graph_edges`), with the same omissions as `Node`. -/
structure Edge where
  id : Nat
  source_id : Nat
  target_id : Nat
  edge_type : String
  source_document_id : Option Nat := none
deriving Repr, DecidableEq

/-- The graph store's table contents, in natural (rowid/insertion) order. -/
structure GraphState where
  nodes : List Node := []
  edges : List Edge := []
deriving Repr, DecidableEq

/-- `create_node` (`INSERT OR REPLACE`): the row conflicting on the primary
key is removed and the new row appended (a replaced row gets a fresh rowid,
hence moves to the end of the natural order). -/
def create_node (g : GraphState) (node : Node) : GraphState :=
  { g with nodes := g.nodes.filter (fun n => !(n.id = node.id)) ++ [node] }

/-- `create_edge` (`INSERT OR REPLACE`), as for `create_node`. -/
def create_edge (g : GraphState) (edge : Edge) : GraphState :=
  { g with edges := g.edges.filter (fun e => !(e.id = edge.id)) ++ [edge] }

/-- SQLite's default `LIKE` case folding: ASCII `A`–`Z` fold to lowercase,
all other characters compare verbatim. -/
def sqliteLowerChar (c : Char) : Char :=
  if c.toNat ≥ 65 && c.toNat ≤ 90 then Char.ofNat (c.toNat + 32) else c

/-- SQLite `LIKE` pattern matching (default `case_sensitive_like` off):
`%` matches any run (tried against every suffix), `_` any single character,
other characters match up to ASCII case folding.  First argument is the
pattern. -/
def likeB : List Char → List Char → Bool
  | [], s => s.isEmpty
  | p :: ps, s =>
    if p = '%' then s.tails.any (fun t => likeB ps t)
    else
      match s with
      | [] => false
      | c :: ss => (p = '_' || sqliteLowerChar p = sqliteLowerChar c) && likeB ps ss

/-- `SQLiteGraphRepository.find_nodes`: optional `node_type = ?` equality
and `name LIKE '%pattern%'` conditions (each added only when the Python
argument is truthy), then `LIMIT`.  Rows are returned in natural order. -/
def find_nodes (g : GraphState) (node_type : Option String) (name_pattern : Option String)
    (limit : Nat) : List Node :=
  (g.nodes.filter (fun n =>
    (!optTruthy node_type || n.node_type = node_type.getD "") &&
    (!optTruthy name_pattern ||
      likeB ('%' :: (name_pattern.getD "").data ++ ['%']) n.name.data))).take limit

/-- The recursive CTE's edge-type condition: present only when `edge_types`
is truthy (a non-empty list). -/
def edgeTypeOk (edge_types : Option (List String)) (e : Edge) : Bool :=
  match edge_types with
  | none => true
  | some ts => ts.isEmpty || ts.contains e.edge_type

/-- The rows of the recursive CTE `path` at a given depth: depth 1 holds the
filtered outgoing edges of the start node, and depth `k+1` the filtered
edges whose source is the target of some depth-`k` row.  (Each edge is
listed once per depth here; the CTE's `UNION ALL` multiplicity is erased by
the final `SELECT DISTINCT`.) -/
def traverseLevel (g : GraphState) (start : Nat) (edge_types : Option (List String)) :
    Nat → List Edge
  | 0 => []
  | 1 => g.edges.filter (fun e => e.source_id = start && edgeTypeOk edge_types e)
  | k + 2 =>
    let prev := traverseLevel g start edge_types (k + 1)
    g.edges.filter (fun e =>
      edgeTypeOk edge_types e && prev.any (fun p => e.source_id = p.target_id))

/-- All CTE rows: depth 1 is always produced by the anchor part, and depth
`k+1` is produced only while `k < max_hops`. -/
def traversePathEdges (g : GraphState) (start : Nat) (max_hops : Nat)
    (edge_types : Option (List String)) : List Edge :=
  (List.range' 1 (max max_hops 1)).flatMap (traverseLevel g start edge_types)

/-- `SQLiteGraphRepository.traverse`: join the CTE rows back to the edge and
both endpoint nodes (an edge whose endpoint rows are missing joins to
nothing), `SELECT DISTINCT`. -/
def traverse (g : GraphState) (start_node_id : Nat) (max_hops : Nat)
    (edge_types : Option (List String)) : List (Node × Edge × Node) :=
  ((traversePathEdges g start_node_id max_hops edge_types).filterMap (fun e =>
    match g.nodes.find? (fun n => n.id = e.source_id),
          g.nodes.find? (fun n => n.id = e.target_id) with
    | some sn, some tn => some (sn, e, tn)
    | _, _ => none)).dedup

/-- `delete_by_document`: edges first, then nodes, matching on provenance. -/
def graph_delete_by_document (g : GraphState) (document_id : Nat) : GraphState × Nat :=
  let keptEdges := g.edges.filter (fun e => !(e.source_document_id = some document_id))
  let keptNodes := g.nodes.filter (fun n => !(n.source_document_id = some document_id))
  (⟨keptNodes, keptEdges⟩,
    (g.edges.length - keptEdges.length) + (g.nodes.length - keptNodes.length))

/-- The number of distinct qualifying edges the `find_similar_nodes` SQL
counts for a candidate row `n`: edges incident to `n` satisfying the `WHERE`
clause, which — by SQL operator precedence — is
`target-shared OR (source-shared AND n.id != target)`: the self-exclusion
binds only to the second disjunct. -/
def sharedEdgeCount (g : GraphState) (node_id : Nat) (n : Node) : Nat :=
  let outTargets := (g.edges.filter (fun e => e.source_id = node_id)).map (fun e => e.target_id)
  let inSources := (g.edges.filter (fun e => e.target_id = node_id)).map (fun e => e.source_id)
  (((g.edges.filter (fun e2 =>
      (e2.source_id = n.id || e2.target_id = n.id) &&
      (outTargets.contains e2.target_id ||
        (inSources.contains e2.source_id && !(n.id = node_id))))).map (fun e => e.id)).dedup).length

/-- `SQLiteGraphRepository.find_similar_nodes`: group the join rows by
candidate node, count distinct shared edges, order by that count descending,
`LIMIT`, then normalize the score as `min(count / 10, 1.0)`. -/
def find_similar_nodes (g : GraphState) (node_id : Nat) (limit : Nat) : List (Node × ℚ) :=
  let rows := g.nodes.filterMap (fun n =>
    let c := sharedEdgeCount g node_id n
    if c = 0 then none else some (n, c))
  let ordered := List.insertionSort (fun a b : Node × Nat => b.2 ≤ a.2) rows
  (ordered.take limit).map (fun p => (p.1, min ((p.2 : ℚ) / 10) 1))

/-! ## `kb_engine/core/models/document.py` and the traceability store -/

inductive DocumentStatus where
  | pending
  | processing
  | indexed
  | failed
  | archived
deriving Repr, DecidableEq

/-- A document row.  Metadata payload fields not inspected by any verified
statement (mime type, tags, domain, free-form metadata, timestamps) are
omitted; UUIDs are `Nat`. -/
structure Document where
  id : Nat
  external_id : Option String := none
  title : String := ""
  content : String := ""
  source_path : Option String := none
  repo_name : Option String := none
  relative_path : Option String := none
  git_commit : Option String := none
  git_remote_url : Option String := none
  status : DocumentStatus := .pending
  content_hash : Option String := none
deriving Repr, DecidableEq

/-- A chunk row, with the same omissions as `Document`. -/
structure Chunk where
  id : Nat
  document_id : Nat
  sequence : Nat := 0
  content : String := ""
  heading_path : List String := []
  section_anchor : Option String := none
deriving Repr, DecidableEq

/-- A chunk embedding as the vector store keys it: by chunk id, with its
document id as deletion metadata.  The vector payload is irrelevant to every
verified statement and omitted. -/
structure Embedding where
  chunk_id : Nat
  document_id : Nat
deriving Repr, DecidableEq

/-- `save_document` (`INSERT OR REPLACE INTO documents`): rows conflicting
on the primary key or on the `external_id UNIQUE` constraint (when not
NULL) are removed, the new row is appended. -/
def save_document (docs : List Document) (d : Document) : List Document :=
  docs.filter (fun x =>
    !(x.id = d.id) && !(d.external_id.isSome && x.external_id = d.external_id)) ++ [d]

/-- `update_document` (`UPDATE documents SET ... WHERE id=?`): every column
except the id and the external id is overwritten on the matching row; no
row is created when the id is absent. -/
def update_document (docs : List Document) (d : Document) : List Document :=
  docs.map (fun x => if x.id = d.id then { d with id := x.id, external_id := x.external_id } else x)

/-- `get_document_by_external_id`. -/
def get_document_by_external_id (docs : List Document) (external_id : String) : Option Document :=
  docs.find? (fun x => x.external_id = some external_id)

/-- `delete_document`: remove the row, report whether it existed. -/
def delete_document_row (docs : List Document) (document_id : Nat) : List Document × Bool :=
  (docs.filter (fun x => !(x.id = document_id)), docs.any (fun x => x.id = document_id))

/-- `save_chunks` (`INSERT OR REPLACE INTO chunks`, one statement per
chunk). -/
def save_chunks (chunks : List Chunk) (new : List Chunk) : List Chunk :=
  new.foldl (fun acc c => acc.filter (fun x => !(x.id = c.id)) ++ [c]) chunks

/-- `delete_chunks_by_document`. -/
def delete_chunks_by_document (chunks : List Chunk) (document_id : Nat) : List Chunk :=
  chunks.filter (fun c => !(c.document_id = document_id))

/-- Vector-store `upsert_embeddings`: replace by chunk id. -/
def upsert_embeddings (vectors : List Embedding) (embs : List Embedding) : List Embedding :=
  embs.foldl (fun acc e => acc.filter (fun x => !(x.chunk_id = e.chunk_id)) ++ [e]) vectors

/-- Vector-store `delete_by_document`. -/
def vector_delete_by_document (vectors : List Embedding) (document_id : Nat) : List Embedding :=
  vectors.filter (fun e => !(e.document_id = document_id))

/-! ## `kb_engine/pipelines/indexation/pipeline.py` -/

/-- Modelled from the spec: `PipelineError` (`kb_engine/core/exceptions.py`
is not under `src/`) — "any failure during indexation/reindex/delete,
carries the document id".  The pipeline raises it with the message
`"Failed to index document: {e}"` and `details={"document_id": ...}`. -/
structure PipelineError where
  message : String
  document_id : Nat
deriving Repr, DecidableEq

/-- An extracted node before insertion (`extraction_result.nodes` entries);
`index_document` copies its name and type into a fresh `Node` with the
document as provenance. -/
structure NodeData where
  name : String := ""
  node_type : String := ""
deriving Repr, DecidableEq

/-- The external collaborators of the indexation pipeline, as oracles.
`Except` results model calls that may raise; `Bool` results model store
writes that may raise (`true` = the write happens).
`compute_content_hash` — Modelled from the spec:
`kb_engine/utils/hashing.py` is not under `src/`; the spec says only that
`content_hash` is a "hash of raw content, used for change detection", so it
is an arbitrary deterministic function of the content.
`nfkd` models `unicodedata.normalize("NFKD", ·)`;
`frontmatter_title` models `extract_frontmatter(content)[0].get("title")`
(the `frontmatter` library). -/
structure Collab where
  nfkd : String → String := fun s => s
  compute_content_hash : String → String := fun s => s
  frontmatter_title : String → Option String := fun _ => none
  chunk_document : Document → Except String (List Chunk) := fun _ => .ok []
  save_chunks_ok : List Chunk → Bool := fun _ => true
  embed_chunks : List Chunk → Except String (List Embedding) := fun _ => .ok []
  upsert_ok : List Embedding → Bool := fun _ => true
  extract_document : Document → List Chunk → Except String (List NodeData) := fun _ _ => .ok []
  update_document_ok : Document → Bool := fun _ => true

/-- The three storage tiers plus a fresh-UUID counter (`next_id` models the
`uuid4` generator: all ids ever generated are below it). -/
structure PipelineState where
  docs : List Document := []
  chunks : List Chunk := []
  vectors : List Embedding := []
  graph : GraphState := {}
  next_id : Nat := 0
deriving Repr, DecidableEq

/-- Insert the extracted nodes (step 7), each as a fresh-id `Node` with the
document as provenance. -/
def insertExtractedNodes (g : GraphState) (next : Nat) (doc_id : Nat) (nds : List NodeData) :
    GraphState × Nat :=
  nds.foldl (fun acc nd =>
    (create_node acc.1
      { id := acc.2, name := nd.name, node_type := nd.node_type,
        source_document_id := some doc_id }, acc.2 + 1)) (g, next)

/-- The `except` handler of `index_document`: set status `failed` on the
in-memory document, best-effort persist it (a failure of this secondary
write is swallowed), and raise `PipelineError` carrying the document id and
the original error. -/
def indexFailure (cv : Collab) (st : PipelineState) (doc1 : Document) (e : String) :
    PipelineState × Except PipelineError Document :=
  let docF := { doc1 with status := .failed }
  let st' :=
    if cv.update_document_ok docF then { st with docs := update_document st.docs docF } else st
  (st', .error { message := "Failed to index document: " ++ e, document_id := doc1.id })

/-- `IndexationPipeline.index_document`.  Steps: set status `processing` and
the content hash; (1) save the document; (2) chunk; (3) compute section
anchors; (4) save chunks; (5) embed; (6) upsert embeddings; (7) extract and
store graph nodes when a graph store is configured; (8) set status
`indexed` and persist.  Any exception from the body lands in
`indexFailure`. -/
def index_document (cv : Collab) (graphEnabled : Bool) (st : PipelineState) (doc : Document) :
    PipelineState × Except PipelineError Document :=
  let doc1 := { doc with
    status := .processing, content_hash := some (cv.compute_content_hash doc.content) }
  let st1 := { st with docs := save_document st.docs doc1 }
  match cv.chunk_document doc1 with
  | .error e => indexFailure cv st1 doc1 e
  | .ok chunks0 =>
    let chunks := chunks0.map (fun c =>
      { c with section_anchor := heading_path_to_anchor cv.nfkd c.heading_path })
    if !cv.save_chunks_ok chunks then indexFailure cv st1 doc1 "save_chunks" else
    let st2 := { st1 with chunks := save_chunks st1.chunks chunks }
    match cv.embed_chunks chunks with
    | .error e => indexFailure cv st2 doc1 e
    | .ok embs =>
      if !cv.upsert_ok embs then indexFailure cv st2 doc1 "upsert_embeddings" else
      let st3 := { st2 with vectors := upsert_embeddings st2.vectors embs }
      match (if graphEnabled then cv.extract_document doc1 chunks else .ok []) with
      | .error e => indexFailure cv st3 doc1 e
      | .ok nds =>
        let gn := if graphEnabled then insertExtractedNodes st3.graph st3.next_id doc1.id nds
                  else (st3.graph, st3.next_id)
        let st4 := { st3 with graph := gn.1, next_id := gn.2 }
        let doc2 := { doc1 with status := .indexed }
        if cv.update_document_ok doc2 then
          ({ st4 with docs := update_document st4.docs doc2 }, .ok doc2)
        else indexFailure cv st4 doc1 "update_document"

/-- `IndexationPipeline.reindex_document`: delete vector entries, graph
entries and chunk rows for the document id, then `index_document` again. -/
def reindex_document (cv : Collab) (graphEnabled : Bool) (st : PipelineState) (doc : Document) :
    PipelineState × Except PipelineError Document :=
  let st1 := { st with vectors := vector_delete_by_document st.vectors doc.id }
  let st2 := if graphEnabled then { st1 with graph := (graph_delete_by_document st1.graph doc.id).1 }
             else st1
  let st3 := { st2 with chunks := delete_chunks_by_document st2.chunks doc.id }
  index_document cv graphEnabled st3 doc

/-- `IndexationPipeline.delete_document`: delete vector entries, graph
entries, chunk rows, then the document row. -/
def pipeline_delete_document (cv : Collab) (graphEnabled : Bool) (st : PipelineState)
    (doc : Document) : PipelineState × Bool :=
  let st1 := { st with vectors := vector_delete_by_document st.vectors doc.id }
  let st2 := if graphEnabled then { st1 with graph := (graph_delete_by_document st1.graph doc.id).1 }
             else st1
  let st3 := { st2 with chunks := delete_chunks_by_document st2.chunks doc.id }
  let del := delete_document_row st3.docs doc.id
  ({ st3 with docs := del.1 }, del.2)

/-- `Path(relative_path).stem`: final component without its last suffix (a
leading dot alone is not a suffix). -/
def pathStem (p : String) : String :=
  let name := ((pathParts p).getLast?.getD "").data
  let afterDot := name.reverse.dropWhile (fun c => c ≠ '.')
  match afterDot with
  | [] => String.mk name
  | _ :: rest => if rest.isEmpty then String.mk name else String.mk rest.reverse

/-- The `Document(...)` construction shared by `sync_repository`'s changed-
file loop: frontmatter title with the file stem as fallback, repo-qualified
external id, git provenance.  `id` is the existing document's id when one
exists, else a fresh one (`uuid4`). -/
def docFromFile (cv : Collab) (env : ScannerEnv) (config : RepositoryConfig) (idN : Nat)
    (relative_path content commit : String) (remote : Option String) : Document :=
  { id := idN,
    title := (cv.frontmatter_title content).getD (pathStem relative_path),
    content := content,
    source_path := some (pyPathJoin env.repo_path relative_path),
    external_id := some (config.name ++ ":" ++ relative_path),
    repo_name := some config.name,
    relative_path := some relative_path,
    git_commit := some commit,
    git_remote_url := remote,
    status := .pending,
    content_hash := none }

/-- The summary dict `sync_repository` returns. -/
structure SyncResult where
  commit : String
  indexed : Nat
  deleted : Nat
  skipped : Nat
deriving Repr, DecidableEq

/-- One iteration of `sync_repository`'s deleted-file loop: look the
document up by its repo-qualified external id and run the pipeline delete
when it exists. -/
def syncDeleteStep (cv : Collab) (graphEnabled : Bool) (config : RepositoryConfig)
    (st : PipelineState) (relative_path : String) : PipelineState :=
  match get_document_by_external_id st.docs (config.name ++ ":" ++ relative_path) with
  | some existing => (pipeline_delete_document cv graphEnabled st existing).1
  | none => st

/-- One iteration of `sync_repository`'s changed-file loop, threading
(state, indexed, skipped).  A read failure, or a `PipelineError` escaping
`index_document`/`reindex_document`, is logged and skipped (non-fatal). -/
def syncChangedStep (cv : Collab) (graphEnabled : Bool) (env : ScannerEnv)
    (config : RepositoryConfig) (current_commit : String) (remote : Option String)
    (acc : PipelineState × Nat × Nat) (relative_path : String) : PipelineState × Nat × Nat :=
  let (st, indexed, skipped) := acc
  match env.read_file relative_path with
  | none => (st, indexed, skipped)
  | some content =>
    let content_hash := cv.compute_content_hash content
    let external_id := config.name ++ ":" ++ relative_path
    match get_document_by_external_id st.docs external_id with
    | some existing =>
      if existing.content_hash = some content_hash then (st, indexed, skipped + 1)
      else
        let doc := docFromFile cv env config existing.id relative_path content current_commit remote
        let out := reindex_document cv graphEnabled st doc
        match out.2 with
        | .ok _ => (out.1, indexed + 1, skipped)
        | .error _ => (out.1, indexed, skipped)
    | none =>
      let doc := docFromFile cv env config st.next_id relative_path content current_commit remote
      let out := index_document cv graphEnabled { st with next_id := st.next_id + 1 } doc
      match out.2 with
      | .ok _ => (out.1, indexed + 1, skipped)
      | .error _ => (out.1, indexed, skipped)

/-- `IndexationPipeline.sync_repository`: delete the documents of deleted
files, then walk the changed files — skip on hash match, index new files,
reindex changed ones — and report (commit, indexed, deleted = number of
deleted files attempted, skipped). -/
def sync_repository (cv : Collab) (graphEnabled : Bool) (env : ScannerEnv)
    (config : RepositoryConfig) (since_commit : String) (st : PipelineState) :
    PipelineState × SyncResult :=
  let current_commit := env.current_commit
  let remote := env.remote_origin
  let changed_files := get_changed_files env config since_commit
  let deleted_files := get_deleted_files env config since_commit
  let st1 := deleted_files.foldl (syncDeleteStep cv graphEnabled config) st
  let out := changed_files.foldl
    (syncChangedStep cv graphEnabled env config current_commit remote) (st1, 0, 0)
  (out.1,
    { commit := current_commit, indexed := out.2.1,
      deleted := deleted_files.length, skipped := out.2.2 })

/-! ## `kb_engine/pipelines/inference/pipeline.py` — RRF fusion -/

inductive RetrievalMode where
  | vector
  | graph
  | hybrid
deriving Repr, DecidableEq

/-- A retrieval result.  Fields not inspected by any verified statement
(path, anchor, snippet, tags, …) are omitted; scores are exact rationals
(the Python floats' intended arithmetic). -/
structure DocumentReference where
  url : String
  title : String := ""
  score : ℚ := 0
  retrieval_mode : RetrievalMode := .vector
deriving Repr, DecidableEq

/-- One `url_scores` dict update: add the contribution to the existing
entry's running sum (keeping the first-seen reference and the dict
position), or append a new entry. -/
def rrfInsert (acc : List (String × DocumentReference × ℚ)) (ref : DocumentReference) (sc : ℚ) :
    List (String × DocumentReference × ℚ) :=
  match acc with
  | [] => [(ref.url, ref, sc)]
  | (u, r0, s0) :: rest =>
    if u = ref.url then (u, r0, s0 + sc) :: rest else (u, r0, s0) :: rrfInsert rest ref sc

/-- The `for rank, ref in enumerate(references)` loop building `url_scores`
(insertion-ordered, as a Python dict): the candidate at 0-based rank `rank`
contributes `1 / (k + rank + 1)` with `k = 60`. -/
def buildScores (acc : List (String × DocumentReference × ℚ)) (rank : Nat) :
    List DocumentReference → List (String × DocumentReference × ℚ)
  | [] => acc
  | ref :: rest => buildScores (rrfInsert acc ref (1 / (60 + (rank : ℚ) + 1))) (rank + 1) rest

/-- `RetrievalPipeline._deduplicate_references`: reciprocal-rank-fusion by
URL — each group's representative keeps the summed score and is retagged
`hybrid`; the merged list is sorted by score descending and truncated. -/
def deduplicate_references (references : List DocumentReference) (limit : Nat) :
    List DocumentReference :=
  let url_scores := buildScores [] 0 references
  let merged := url_scores.map (fun t =>
    { t.2.1 with score := t.2.2, retrieval_mode := RetrievalMode.hybrid })
  (List.insertionSort (fun a b => b.score ≤ a.score) merged).take limit

/-! ## Specification-side notions used by the verified statements -/

/-- The total reciprocal-rank-fusion contribution of a URL, as the
specification words it: the sum of `1 / (60 + r + 1)` over the 0-based
ranks `r` of the concatenated candidate list at which the URL occurs.
`rank` is the rank of the list's head. -/
def rrfSumFrom (rank : Nat) (url : String) : List DocumentReference → ℚ
  | [] => 0
  | r :: rest =>
    (if r.url = url then 1 / (60 + (rank : ℚ) + 1) else 0) + rrfSumFrom (rank + 1) url rest

/-- Total RRF score of a URL over a candidate list (ranks from 0). -/
def rrfTotal (references : List DocumentReference) (url : String) : ℚ :=
  rrfSumFrom 0 url references

/-- Concrete failure example: a collaborator whose chunker always raises. -/
def failingCollab : Collab := { chunk_document := fun _ => Except.error "boom" }

def failingDoc : Document := { id := 5, title := "t", content := "c" }

def failingDocFailed : Document :=
  { failingDoc with
      status := DocumentStatus.failed,
      content_hash := some (failingCollab.compute_content_hash failingDoc.content) }

def failingDocProcessing : Document :=
  { failingDoc with
      status := DocumentStatus.processing,
      content_hash := some (failingCollab.compute_content_hash failingDoc.content) }

/-- Concrete fusion example: two candidates for URL `u` at ranks 0 and 2,
one for URL `v` at rank 1. -/
def rrfCandidates : List DocumentReference :=
  [{ url := "u" }, { url := "v" }, { url := "u", title := "dup" }]

/-- Expected first fused result of `rrfCandidates`: summed score
`1/61 + 1/63`, retagged hybrid, representative is the rank-0 candidate. -/
def rrfFusedU : DocumentReference :=
  { url := "u", score := 1 / 61 + 1 / 63, retrieval_mode := RetrievalMode.hybrid }

/-- Expected second fused result of `rrfCandidates`. -/
def rrfFusedV : DocumentReference :=
  { url := "v", score := 1 / 62, retrieval_mode := RetrievalMode.hybrid }

/-- The running RRF score a `url_scores` dict assigns to a URL (`0` when the
URL has no entry); proof-side accessor for the fusion invariant. -/
def urlScoreOf (url_scores : List (String × DocumentReference × ℚ)) (url : String) : ℚ :=
  ((url_scores.find? (fun e => e.1 = url)).map (fun e => e.2.2)).getD 0

/-- Specification-side reachability in the graph: `ReachesAt g start ets k e`
holds when `e` is the last edge of a chain of `k ≥ 1` outgoing edges
starting at `start`, every edge of which passes the edge-type filter. -/
inductive ReachesAt (g : GraphState) (start : Nat) (ets : Option (List String)) :
    Nat → Edge → Prop where
  | base (e : Edge) (he : e ∈ g.edges) (hs : e.source_id = start)
      (hok : edgeTypeOk ets e = true) : ReachesAt g start ets 1 e
  | step (k : Nat) (p e : Edge) (hp : ReachesAt g start ets k p) (he : e ∈ g.edges)
      (hs : e.source_id = p.target_id) (hok : edgeTypeOk ets e = true) :
      ReachesAt g start ets (k + 1) e

/-- Concrete traversal example: the chain A → B → C. -/
def chainNodeA : Node := { id := 1, name := "A", node_type := "entity" }

def chainNodeB : Node := { id := 2, name := "B", node_type := "entity" }

def chainNodeC : Node := { id := 3, name := "C", node_type := "entity" }

def chainEdgeAB : Edge := { id := 10, source_id := 1, target_id := 2, edge_type := "related_to" }

def chainEdgeBC : Edge := { id := 11, source_id := 2, target_id := 3, edge_type := "related_to" }

def chainGraph : GraphState :=
  { nodes := [chainNodeA, chainNodeB, chainNodeC], edges := [chainEdgeAB, chainEdgeBC] }

/-- Boolean substring containment: `containsSubB sub l` holds iff `sub`
occurs contiguously inside `l` (the specification's "substring"). -/
def containsSubB (sub : List Char) : List Char → Bool
  | [] => sub.isEmpty
  | c :: rest => startsWithB (c :: rest) sub || containsSubB sub rest

/-- A SQL `LIKE` pattern without wildcard metacharacters. -/
def likePlain (pattern : String) : Prop :=
  '%' ∉ pattern.data ∧ '_' ∉ pattern.data

/-- Well-formedness of the document store, as the SQLite schema enforces it
(`id TEXT PRIMARY KEY`, `external_id TEXT UNIQUE`) together with freshness
of the UUID counter: ids are pairwise distinct, non-NULL external ids are
pairwise distinct, and every stored id is below `next_id`. -/
def DocsWF (st : PipelineState) : Prop :=
  (st.docs.map (fun d => d.id)).Nodup ∧
  (st.docs.filterMap (fun d => d.external_id)).Nodup ∧
  ∀ d ∈ st.docs, d.id < st.next_id

/-- The changed-file skip invariant of `sync_repository`: either the file
cannot be read, or the document stored under its repo-qualified external id
carries exactly the hash of the file's current content. -/
def HashOk (cv : Collab) (env : ScannerEnv) (config : RepositoryConfig) (st : PipelineState)
    (p : String) : Prop :=
  match env.read_file p with
  | none => True
  | some content =>
    ∃ r, get_document_by_external_id st.docs (config.name ++ ":" ++ p) = some r
      ∧ r.content_hash = some (cv.compute_content_hash content)

/-- The step-1 document of `index_document` (its `doc1` local): status
`processing`, content hash filled in. -/
def processingDoc (cv : Collab) (doc : Document) : Document :=
  { doc with
      status := DocumentStatus.processing,
      content_hash := some (cv.compute_content_hash doc.content) }

/-- Concrete sync environment for the idempotence example: one readable
markdown file reported changed, nothing deleted. -/
def syncEnvW : ScannerEnv :=
  { repo_path := "/repo",
    current_commit := "c1",
    read_file := fun _ => some "hello",
    diff_since := fun _ => some ["a.md"],
    diff_deleted_since := fun _ => some [] }

/-- Concrete repository configuration for the idempotence example. -/
def syncConfigW : RepositoryConfig := { name := "kb", local_path := "/repo" }

/-! # Theorems -/

/-! ## Shared helper lemmas -/

theorem startsWithB_append_self (p l : List Char) : startsWithB (p ++ l) p = true := by
  induction p with
  | nil => simp [startsWithB]
  | cons c cs ih => simp [startsWithB, ih]

theorem startsWithB_iff (l p : List Char) : startsWithB l p = true ↔ p <+: l := by
  induction p generalizing l with
  | nil => simp [startsWithB]
  | cons c cs ih =>
    cases l with
    | nil => simp [startsWithB]
    | cons a as =>
      simp only [startsWithB, Bool.and_eq_true, decide_eq_true_eq, ih]
      constructor
      · rintro ⟨rfl, t, rfl⟩
        exact ⟨t, rfl⟩
      · rintro ⟨t, ht⟩
        rw [List.cons_append] at ht
        cases ht
        exact ⟨rfl, t, rfl⟩

theorem endsWithB_iff (l suf : List Char) : endsWithB l suf = true ↔ suf <:+ l := by
  rw [endsWithB, startsWithB_iff, List.reverse_prefix]

theorem takeWhile_append_stop {p : Char → Bool} (l : List Char) (a : Char) (r : List Char)
    (hl : ∀ c ∈ l, p c = true) (ha : p a = false) :
    (l ++ a :: r).takeWhile p = l := by
  induction l with
  | nil => simp [List.takeWhile_cons, ha]
  | cons c cs ih =>
    have hc : p c = true := hl c (by simp)
    have ih' := ih (fun x hx => hl x (by simp [hx]))
    simp [List.takeWhile_cons, hc, ih']

/-! ## C5 — heading-anchor generation -/

/-- C5: the computed section anchor follows the specification's pipeline
(normalize, lowercase, strip, collapse whitespace to hyphens, trim hyphens)
with one amendment: the stripping step keeps underscores as well (Python's
regex word class), matching GitHub's anchor convention.  The four concrete
examples of the specification hold as stated. -/
theorem kb_c5_heading_anchor :
    (∀ (nfkd : String → String) (heading : String),
        heading_to_anchor nfkd heading = amendedHeadingAnchor nfkd heading)
    ∧ heading_to_anchor (fun s => s) "Atributos" = "atributos"
    ∧ heading_to_anchor (fun s => s) "Ciclo de Vida" = "ciclo-de-vida"
    ∧ heading_to_anchor (fun s => s) "Entity: User" = "entity-user"
    ∧ heading_to_anchor (fun s => s) "Estados (v2)" = "estados-v2" :=
  ⟨fun _ _ => rfl, by decide, by decide, by decide, by decide⟩

/-- C5 counterexample: the claim says every character other than
letters/digits/whitespace/hyphen is stripped, but the code keeps the
underscore: on the heading `a_b` the code yields `a_b` while the claim's
own stripping rule (`specHeadingAnchor`) yields `ab`. -/
theorem kb_c5_counterexample :
    heading_to_anchor (fun s => s) "a_b" = "a_b"
    ∧ specHeadingAnchor (fun s => s) "a_b" = "ab"
    ∧ ("a_b" : String) ≠ "ab" :=
  ⟨by decide, by decide, by decide⟩

/-! ## C6 — URL resolution -/

theorem dropGitSuffix_append (u : String) : dropGitSuffix (u ++ ".git") = u := by
  have hsw : endsWithB (u ++ ".git").data ".git".data = true := by
    rw [endsWithB, String.data_append, List.reverse_append]
    exact startsWithB_append_self _ _
  rw [dropGitSuffix, if_pos hsw, String.data_append]
  have hlen : (u.data ++ ".git".data).length - 4 = u.data.length := by
    simp [List.length_append]
  rw [hlen]
  have : List.take u.data.length (u.data ++ ".git".data) = u.data := List.take_left _ _
  rw [this]

theorem sshConvert_eq (host path : String) (h1 : host ≠ "") (h2 : ∀ c ∈ host.data, c ≠ ':')
    (h3 : path ≠ "") (h4 : ∀ c ∈ path.data, c ≠ '\n') :
    sshConvert ("git@" ++ host ++ ":" ++ path) = some ("https://" ++ host ++ "/" ++ path) := by
  have hdata : ("git@" ++ host ++ ":" ++ path).data
      = "git@".data ++ (host.data ++ ':' :: path.data) := by
    simp [String.data_append]
  have hhostne : host.data ≠ [] := fun h => h1 (String.ext h)
  have hpathne : path.data ≠ [] := fun h => h3 (String.ext h)
  have hsw : startsWithB ("git@".data ++ (host.data ++ ':' :: path.data)) "git@".data = true :=
    startsWithB_append_self _ _
  have hdrop : List.drop 4 ("git@".data ++ (host.data ++ ':' :: path.data))
      = host.data ++ ':' :: path.data := by
    have h4 : ("git@".data).length = 4 := rfl
    rw [← h4]
    exact List.drop_left _ _
  have htake : (host.data ++ ':' :: path.data).takeWhile (fun c => decide (c ≠ ':'))
      = host.data := by
    refine takeWhile_append_stop _ _ _ (fun c hc => ?_) (by simp)
    simpa using h2 c hc
  have hdrop2 : List.drop (host.data.length + 1) (host.data ++ ':' :: path.data) = path.data := by
    have hsplit : host.data ++ ':' :: path.data = (host.data ++ [':']) ++ path.data := by simp
    have hl : (host.data ++ [':']).length = host.data.length + 1 := by simp
    rw [hsplit, ← hl]
    exact List.drop_left _ _
  have htake2 : path.data.takeWhile (fun c => decide (c ≠ '\n')) = path.data := by
    rw [List.takeWhile_eq_self_iff]
    intro c hc
    simpa using h4 c hc
  have hne1 : ¬ (host.data.length = 0) := fun h => hhostne (List.length_eq_zero.mp h)
  have hne2 : ¬ ((host.data ++ ':' :: path.data).length = host.data.length) := by
    simp [List.length_append]
  have hne3 : ¬ (path.data.length = 0) := fun h => hpathne (List.length_eq_zero.mp h)
  rw [sshConvert.eq_def, hdata]
  simp only [hsw, if_true, hdrop, htake, hdrop2, htake2, hne1, hne2, hne3, if_false,
    ite_true, ite_false, eq_self_iff_true]
  refine congrArg some (String.ext ?_)
  simp [String.data_append]

/-- C6 (amended): `resolve` prefers the template, then the remote, then the
local `file://` URL; remote normalization strips one trailing `.git` and
converts SSH-style remotes of the literal-`git`-user form
`git@host:org/repo` (not arbitrary users) to `https://host/org/repo`; the
two concrete resolutions of the specification hold as stated. -/
theorem kb_c6_url_resolution :
    (∀ (r : URLResolver) (rel : String) (a : Option String),
        optTruthy r.config.base_url_template = true → resolve r rel a = resolve_template r rel a)
    ∧ (∀ (r : URLResolver) (rel : String) (a : Option String),
        optTruthy r.config.base_url_template = false →
        optTruthy r.config.remote_url = true → resolve r rel a = resolve_remote r rel a)
    ∧ (∀ (r : URLResolver) (rel : String) (a : Option String),
        optTruthy r.config.base_url_template = false →
        optTruthy r.config.remote_url = false → resolve r rel a = resolve_local r rel a)
    ∧ (∀ u : String, dropGitSuffix (u ++ ".git") = u)
    ∧ (∀ host path : String, host ≠ "" → (∀ c ∈ host.data, c ≠ ':') → path ≠ "" →
        (∀ c ∈ path.data, c ≠ '\n') →
        sshConvert ("git@" ++ host ++ ":" ++ path) = some ("https://" ++ host ++ "/" ++ path))
    ∧ resolve
        ⟨{ name := "test-repo", local_path := "/tmp/test-repo",
            remote_url := some "git@github.com:org/repo.git", branch := "develop" },
          "/tmp/test-repo"⟩
        "README.md" none = "https://github.com/org/repo/blob/develop/README.md"
    ∧ (∀ rp : String, resolve ⟨{ name := "kb", local_path := "." }, rp⟩ "docs/entity.md"
        (some "atributos") = "file://" ++ rp ++ "/docs/entity.md#atributos") := by
  refine ⟨?_, ?_, ?_, dropGitSuffix_append, sshConvert_eq, by decide, ?_⟩
  · intro r rel a h
    rw [resolve, if_pos h]
  · intro r rel a h1 h2
    rw [resolve, if_neg (by simp [h1]), if_pos h2]
  · intro r rel a h1 h2
    rw [resolve, if_neg (by simp [h1]), if_neg (by simp [h2])]
  · intro rp
    show appendAnchor ("file://" ++ pyPathJoin rp "docs/entity.md") (some "atributos") = _
    rw [pyPathJoin, if_neg (by decide), appendAnchor]
    rw [if_neg (by decide)]
    simp [String.append_assoc]

/-- C6 witness: the SSH-conversion clause applied at a concrete remote. -/
theorem kb_c6_witness :
    sshConvert ("git@" ++ "h" ++ ":" ++ "o/r") = some ("https://" ++ "h" ++ "/" ++ "o/r") :=
  kb_c6_url_resolution.2.2.2.2.1 "h" "o/r" (by decide) (by decide) (by decide) (by decide)

/-- C6 counterexample: the claim's normalization rule reads
"SSH-style `user@host:org/repo`", but only the literal user `git` is
converted — a remote with user `alice` is left unchanged. -/
theorem kb_c6_counterexample :
    normalize_remote_url "alice@github.com:org/repo" = "alice@github.com:org/repo"
    ∧ normalize_remote_url "alice@github.com:org/repo" ≠ "https://github.com/org/repo" :=
  ⟨by decide, by decide⟩

/-! ## C7 — scanner glob semantics -/

theorem fnmatchComp_literal (p : List Char) (hp : ∀ c ∈ p, c ≠ '*' ∧ c ≠ '?') :
    ∀ s, fnmatchComp p s = true ↔ s = p := by
  induction p with
  | nil => intro s; cases s <;> simp [fnmatchComp]
  | cons pc ps ih =>
    intro s
    have hpc := hp pc (by simp)
    cases s with
    | nil => simp [fnmatchComp, hpc.1]
    | cons c ss =>
      have hps : ∀ x ∈ ps, x ≠ '*' ∧ x ≠ '?' := fun x hx => hp x (by simp [hx])
      simp only [fnmatchComp]
      rw [if_neg hpc.1]
      simp only [Bool.and_eq_true, Bool.or_eq_true, decide_eq_true_eq, ih hps ss,
        List.cons.injEq, hpc.2, false_or]
      constructor
      · rintro ⟨rfl, rfl⟩; exact ⟨rfl, rfl⟩
      · rintro ⟨rfl, rfl⟩; exact ⟨rfl, rfl⟩

theorem fnmatchComp_star (ps : List Char) (s : List Char) :
    fnmatchComp ('*' :: ps) s = true ↔ ∃ t, t <:+ s ∧ fnmatchComp ps t = true := by
  simp [fnmatchComp, List.any_eq_true, List.mem_tails]

theorem suffix_eq_of_length {α : Type} {t₁ t₂ l : List α} (h1 : t₁ <:+ l) (h2 : t₂ <:+ l)
    (hl : t₁.length = t₂.length) : t₁ = t₂ := by
  obtain ⟨a, rfl⟩ := h1
  obtain ⟨b, hb⟩ := h2
  have hlen : b.length + t₂.length = a.length + t₁.length := by
    have := congrArg List.length hb
    simpa [List.length_append] using this
  exact ((List.append_inj hb (by omega)).2).symm

theorem zip_all_last {α β : Type} (pr : α × β → Bool) :
    ∀ (l₁ : List α) (l₂ : List β) (a : α) (b : β), l₁.length = l₂.length →
      (l₁.zip l₂).all pr = true → l₁.getLast? = some a → l₂.getLast? = some b →
      pr (a, b) = true := by
  intro l₁
  induction l₁ with
  | nil => intro l₂ a b _ _ h; simp at h
  | cons x xs ih =>
    intro l₂ a b hlen hall ha hb
    cases l₂ with
    | nil => simp at hlen
    | cons y ys =>
      cases xs with
      | nil =>
        cases ys with
        | nil =>
          simp at ha hb hall
          subst ha; subst hb
          simpa using hall
        | cons y' ys' => simp at hlen
      | cons x' xs' =>
        cases ys with
        | nil => simp at hlen
        | cons y' ys' =>
          rw [List.getLast?_cons_cons] at ha hb
          have hall' : ((x' :: xs').zip (y' :: ys')).all pr = true := by
            rw [List.zip_cons_cons, List.all_cons, Bool.and_eq_true] at hall
            exact hall.2
          exact ih (y' :: ys') a b (by simpa using hlen) hall' ha hb

theorem pathMatch_last (f P fl pl : String) (hf : (pathParts f).getLast? = some fl)
    (hp : (pathParts P).getLast? = some pl) (h : pathMatch f P = true) :
    fnmatchComp pl.data fl.data = true := by
  rw [pathMatch] at h
  simp only [Bool.and_eq_true, Bool.not_eq_true', List.isEmpty_eq_false_iff_exists_mem,
    decide_eq_true_eq] at h
  obtain ⟨⟨hne, hle⟩, hall⟩ := h
  set fparts := pathParts f with hfp
  set pparts := pathParts P with hpp
  have hplen : 1 ≤ pparts.length := by
    cases hq : pparts with
    | nil => rw [hq] at hne; simp at hne
    | cons q qs => simp [hq]
  have hdlen : (fparts.drop (fparts.length - pparts.length)).length = pparts.length := by
    rw [List.length_drop]; omega
  have hdlast : (fparts.drop (fparts.length - pparts.length)).getLast? = some fl := by
    rw [List.getLast?_drop, if_neg (by omega)]
    exact hf
  exact zip_all_last _ _ _ fl pl hdlen hall hdlast hp

/-- C7: a file is included by `_filter_files` iff it matches at least one
include pattern and no exclude pattern; `**/*.md` matches both a root-level
and a nested markdown file; and `**/*.py` matches no file whose final
component ends in `.md`. -/
theorem kb_c7_scanner_globs :
    (∀ (config : RepositoryConfig) (files : List String) (f : String),
        f ∈ filter_files config files ↔
          f ∈ files ∧ (∃ pat ∈ config.include_patterns, match_pattern f pat = true)
            ∧ ¬ ∃ pat ∈ config.exclude_patterns, match_pattern f pat = true)
    ∧ match_pattern "README.md" "**/*.md" = true
    ∧ match_pattern "docs/entity.md" "**/*.md" = true
    ∧ (∀ f fl : String, (pathParts f).getLast? = some fl →
        endsWithB fl.data ".md".data = true → match_pattern f "**/*.py" = false) := by
  refine ⟨?_, by decide, by decide, ?_⟩
  · intro config files f
    rw [filter_files, pySorted, (List.perm_insertionSort _ _).mem_iff, List.mem_filter]
    simp [List.any_eq_true, and_assoc]
  · intro f fl hfl hmd
    have hpy : ∀ (pl : String), fnmatchComp pl.data fl.data = true → pl = "*.py" → False := by
      rintro pl hm rfl
      have hstar : "*.py".data = '*' :: ".py".data := rfl
      rw [hstar, fnmatchComp_star] at hm
      obtain ⟨t, ht, hlit⟩ := hm
      have hlitp : ∀ c ∈ ".py".data, c ≠ '*' ∧ c ≠ '?' := by decide
      rw [fnmatchComp_literal _ hlitp] at hlit
      subst hlit
      have hmd' : ".md".data <:+ fl.data := (endsWithB_iff _ _).mp hmd
      have : ".py".data = ".md".data := suffix_eq_of_length ht hmd' (by decide)
      exact absurd this (by decide)
    cases hmp : match_pattern f "**/*.py" with
    | false => rfl
    | true =>
      exfalso
      rw [match_pattern, Bool.or_eq_true, Bool.and_eq_true] at hmp
      rcases hmp with h1 | ⟨_, h2⟩
      · exact hpy "*.py" (pathMatch_last f "**/*.py" fl "*.py" hfl (by decide) h1) rfl
      · exact hpy "*.py"
          (pathMatch_last f (String.mk (List.drop 3 "**/*.py".data)) fl "*.py" hfl
            (by decide) h2) rfl

/-- C7 witness: the no-`.md`-file clause applied at a concrete path. -/
theorem kb_c7_witness : match_pattern "notes.md" "**/*.py" = false :=
  kb_c7_scanner_globs.2.2.2 "notes.md" "notes.md" (by decide) (by decide)

/-! ## C10 — scanner output ordering -/

theorem pyGo_iff_not_lex :
    ∀ as bs : List Char, pyStrLeB.go as bs = true ↔ ¬ List.Lex (· < ·) bs as := by
  intro as
  induction as with
  | nil =>
    intro bs
    simp only [pyStrLeB.go]
    constructor
    · intro _ h; cases h
    · intro _; trivial
  | cons a as ih =>
    intro bs
    cases bs with
    | nil =>
      simp only [pyStrLeB.go]
      constructor
      · intro h; cases h
      · intro h; exact absurd List.Lex.nil h
    | cons b bs =>
      by_cases hab : a = b
      · subst hab
        rw [pyStrLeB.go, if_pos rfl, ih bs]
        constructor
        · intro h hl
          cases hl with
          | cons hl' => exact h hl'
          | rel hr => exact absurd hr (lt_irrefl a)
        · intro h hl
          exact h (List.Lex.cons hl)
      · rw [pyStrLeB.go, if_neg hab]
        constructor
        · intro h hl
          have hlt : a < b := by simpa using h
          cases hl with
          | cons _ => exact hab rfl
          | rel hr => exact absurd hlt (lt_asymm hr)
        · intro h
          rcases lt_trichotomy a b with hlt | heq | hgt
          · simpa using hlt
          · exact absurd heq hab
          · exact absurd (List.Lex.rel hgt) h

theorem pyStrLe_iff_le (a b : String) : pyStrLe a b ↔ a ≤ b := by
  rw [pyStrLe, pyStrLeB, pyGo_iff_not_lex]
  rw [show (a ≤ b) = ¬ (b < a) from (propext not_lt).symm, String.lt_iff_toList_lt]
  exact Iff.rfl

theorem sorted_filter_files (config : RepositoryConfig) (files : List String) :
    List.Sorted (· ≤ ·) (filter_files config files) := by
  rw [filter_files, pySorted]
  haveI : IsTotal String pyStrLe :=
    ⟨fun a b => by
      rw [pyStrLe_iff_le, pyStrLe_iff_le]; exact le_total a b⟩
  haveI : IsTrans String pyStrLe :=
    ⟨fun a b c h1 h2 => by
      rw [pyStrLe_iff_le] at h1 h2 ⊢; exact le_trans h1 h2⟩
  have hs := List.sorted_insertionSort pyStrLe
    (files.filter (fun filepath =>
      (config.include_patterns.any (fun pattern => match_pattern filepath pattern)) &&
      !(config.exclude_patterns.any (fun pattern => match_pattern filepath pattern))))
  exact hs.imp (fun h => (pyStrLe_iff_le _ _).mp h)

/-! ## C8 — find_nodes name filtering -/

theorem containsSubB_iff (sub l : List Char) :
    containsSubB sub l = true ↔ ∃ t, t <:+ l ∧ sub <+: t := by
  induction l with
  | nil =>
    simp only [containsSubB, List.isEmpty_iff, List.suffix_nil]
    constructor
    · rintro rfl; exact ⟨[], rfl, List.prefix_refl _⟩
    · rintro ⟨t, rfl, hp⟩; exact List.prefix_nil.mp hp
  | cons c rest ih =>
    simp only [containsSubB, Bool.or_eq_true, startsWithB_iff, ih]
    constructor
    · rintro (h | ⟨t, ht, hp⟩)
      · exact ⟨c :: rest, List.suffix_refl _, h⟩
      · exact ⟨t, ht.trans (List.suffix_cons c rest), hp⟩
    · rintro ⟨t, ht, hp⟩
      rcases List.suffix_cons_iff.mp ht with rfl | ht'
      · exact Or.inl hp
      · exact Or.inr ⟨t, ht', hp⟩

theorem likeB_percent (ps s : List Char) :
    likeB ('%' :: ps) s = true ↔ ∃ t, t <:+ s ∧ likeB ps t = true := by
  simp [likeB, List.any_eq_true, List.mem_tails]

theorem likeB_append_percent (p : List Char) (hp : '%' ∉ p ∧ '_' ∉ p) :
    ∀ t, likeB (p ++ ['%']) t = true ↔
      ∃ u, u <+: t ∧ u.map sqliteLowerChar = p.map sqliteLowerChar := by
  induction p with
  | nil =>
    intro t
    constructor
    · intro _
      exact ⟨[], List.nil_prefix, by simp⟩
    · intro _
      rw [List.nil_append]
      exact (likeB_percent [] t).mpr ⟨[], List.nil_suffix, rfl⟩
  | cons a p' ih =>
    have ha1 : a ≠ '%' := fun h => hp.1 (h ▸ List.mem_cons_self a p')
    have ha2 : a ≠ '_' := fun h => hp.2 (h ▸ List.mem_cons_self a p')
    have hp' : '%' ∉ p' ∧ '_' ∉ p' :=
      ⟨fun h => hp.1 (List.mem_cons_of_mem a h), fun h => hp.2 (List.mem_cons_of_mem a h)⟩
    intro t
    cases t with
    | nil =>
      constructor
      · intro h
        exfalso
        rw [List.cons_append] at h
        simp [likeB, ha1] at h
      · rintro ⟨u, hu, hmap⟩
        rw [List.prefix_nil.mp hu] at hmap
        simp at hmap
    | cons c ts =>
      have heq : likeB ((a :: p') ++ ['%']) (c :: ts)
          = ((a = '_' || sqliteLowerChar a = sqliteLowerChar c) && likeB (p' ++ ['%']) ts) := by
        rw [List.cons_append]
        simp [likeB, ha1]
      rw [heq]
      simp only [Bool.and_eq_true, Bool.or_eq_true, decide_eq_true_eq, ha2, false_or,
        ih hp' ts]
      constructor
      · rintro ⟨hfold, u, hu, hmap⟩
        exact ⟨c :: u, List.cons_prefix_cons.mpr ⟨rfl, hu⟩, by simp [hmap, hfold.symm]⟩
      · rintro ⟨u, hu, hmap⟩
        cases u with
        | nil => simp at hmap
        | cons u0 us =>
          obtain ⟨rfl, hus⟩ := List.cons_prefix_cons.mp hu
          simp only [List.map_cons, List.cons.injEq] at hmap
          exact ⟨hmap.1.symm, us, hus, hmap.2⟩

theorem likeB_contains (p s : List Char) (hp : '%' ∉ p ∧ '_' ∉ p)
    (h : likeB ('%' :: (p ++ ['%'])) s = true) :
    containsSubB (p.map sqliteLowerChar) (s.map sqliteLowerChar) = true := by
  rw [likeB_percent] at h
  obtain ⟨t, ht, hm⟩ := h
  rw [likeB_append_percent p hp t] at hm
  obtain ⟨u, hu, hmap⟩ := hm
  rw [containsSubB_iff]
  exact ⟨t.map sqliteLowerChar, ht.map _, hmap ▸ hu.map _⟩

/-- C8 (amended): a node returned by `find_nodes` with a (wildcard-free)
name pattern contains the pattern as a case-insensitive substring (SQLite's
default ASCII `LIKE` folding — not case-sensitive as claimed), is of the
requested type when one is given, comes from the store, and the result
respects the limit. -/
theorem kb_c8_find_nodes :
    (∀ (g : GraphState) (node_type : Option String) (np : String) (limit : Nat) (n : Node),
        np ≠ "" → likePlain np → n ∈ find_nodes g node_type (some np) limit →
          n ∈ g.nodes
          ∧ containsSubB (np.data.map sqliteLowerChar) (n.name.data.map sqliteLowerChar) = true
          ∧ (∀ t, node_type = some t → t ≠ "" → n.node_type = t))
    ∧ (∀ (g : GraphState) (node_type name_pattern : Option String) (limit : Nat),
        (find_nodes g node_type name_pattern limit).length ≤ limit) := by
  constructor
  · intro g node_type np limit n hne hplain hmem
    rw [find_nodes] at hmem
    have hmem' := List.mem_of_mem_take hmem
    rw [List.mem_filter] at hmem'
    obtain ⟨hn, hcond⟩ := hmem'
    rw [Bool.and_eq_true] at hcond
    obtain ⟨htype, hname⟩ := hcond
    have hts : optTruthy (some np) = true := by
      simp [optTruthy, hne]
    rw [hts] at hname
    simp only [Bool.not_true, Bool.false_or, Option.getD_some] at hname
    refine ⟨hn, likeB_contains _ _ ⟨hplain.1, hplain.2⟩ hname, ?_⟩
    rintro t rfl htne
    have hts' : optTruthy (some t) = true := by simp [optTruthy, htne]
    rw [hts'] at htype
    simpa using htype
  · intro g node_type name_pattern limit
    rw [find_nodes]
    exact List.length_take_le _ _

/-- C8 witness: the membership clause applied to a concrete store. -/
theorem kb_c8_witness :
    ({ id := 1, name := "User", node_type := "entity" } : Node)
      ∈ (⟨[{ id := 1, name := "User", node_type := "entity" }], []⟩ : GraphState).nodes
    ∧ containsSubB ("Us".data.map sqliteLowerChar)
        ("User".data.map sqliteLowerChar) = true
    ∧ (∀ t, (some "entity" : Option String) = some t → t ≠ "" →
        ({ id := 1, name := "User", node_type := "entity" } : Node).node_type = t) :=
  kb_c8_find_nodes.1 ⟨[{ id := 1, name := "User", node_type := "entity" }], []⟩
    (some "entity") "Us" 10 { id := 1, name := "User", node_type := "entity" }
    (by decide) ⟨by decide, by decide⟩ (by decide)

/-- C8 counterexample: with the single node `USER` stored, the pattern
`user` still returns it (SQLite `LIKE` is ASCII case-insensitive by
default), although `user` is not a case-sensitive substring of `USER`. -/
theorem kb_c8_counterexample :
    find_nodes ⟨[{ id := 1, name := "USER", node_type := "entity" }], []⟩ none
        (some "user") 10
      = [{ id := 1, name := "USER", node_type := "entity" }]
    ∧ containsSubB "user".data "USER".data = false :=
  ⟨by decide, by decide⟩

/-! ## C9 — find_similar_nodes includes the target node -/

/-- C9: evaluation of `find_similar_nodes` at the failing input.  In the
store `T --e--> B`, querying similar nodes of `T` returns `T` itself (with
score `1/10`): in the SQL `WHERE` clause, `OR` binds looser than `AND`, so
the `n.id != ?` self-exclusion applies only to the second disjunct, and `T`
qualifies through the first (its outgoing edge's target is among the
targets of the query node's outgoing edges). -/
theorem kb_c9_find_similar_includes_self :
    find_similar_nodes
        ⟨[{ id := 1, name := "T", node_type := "entity" },
          { id := 2, name := "B", node_type := "entity" }],
         [{ id := 10, source_id := 1, target_id := 2, edge_type := "related_to" }]⟩ 1 10
      = [({ id := 1, name := "T", node_type := "entity" }, 1 / 10),
         ({ id := 2, name := "B", node_type := "entity" }, 1 / 10)] := by
  rw [find_similar_nodes]
  have hrows :
      (List.insertionSort (fun a b : Node × Nat => b.2 ≤ a.2)
        ((⟨[{ id := 1, name := "T", node_type := "entity" },
            { id := 2, name := "B", node_type := "entity" }],
           [{ id := 10, source_id := 1, target_id := 2, edge_type := "related_to" }]⟩ :
            GraphState).nodes.filterMap (fun n =>
          let c := sharedEdgeCount
            ⟨[{ id := 1, name := "T", node_type := "entity" },
              { id := 2, name := "B", node_type := "entity" }],
             [{ id := 10, source_id := 1, target_id := 2, edge_type := "related_to" }]⟩ 1 n
          if c = 0 then none else some (n, c)))).take 10
      = [({ id := 1, name := "T", node_type := "entity" }, 1),
         ({ id := 2, name := "B", node_type := "entity" }, 1)] := by decide
  rw [hrows]
  norm_num

/-! ## C2 — reciprocal-rank fusion -/

theorem urlScoreOf_rrfInsert (acc : List (String × DocumentReference × ℚ))
    (ref : DocumentReference) (sc : ℚ) (u : String) :
    urlScoreOf (rrfInsert acc ref sc) u
      = urlScoreOf acc u + (if ref.url = u then sc else 0) := by
  induction acc with
  | nil =>
    by_cases h : ref.url = u
    · subst h; simp [rrfInsert, urlScoreOf]
    · simp [rrfInsert, urlScoreOf, h]
  | cons hd rest ih =>
    obtain ⟨v, r0, s0⟩ := hd
    simp only [rrfInsert]
    by_cases hv : v = ref.url
    · rw [if_pos hv]
      by_cases hu : v = u
      · simp only [urlScoreOf]
        rw [List.find?_cons_of_pos _ (by simp [hu]), List.find?_cons_of_pos _ (by simp [hu])]
        rw [if_pos (hv.symm.trans hu)]
        simp
      · simp only [urlScoreOf]
        rw [List.find?_cons_of_neg _ (by simp [hu]), List.find?_cons_of_neg _ (by simp [hu])]
        rw [if_neg (fun h => hu (hv.trans h))]
        simp
    · rw [if_neg hv]
      by_cases hu : v = u
      · simp only [urlScoreOf]
        rw [List.find?_cons_of_pos _ (by simp [hu]), List.find?_cons_of_pos _ (by simp [hu])]
        rw [if_neg (fun h => hv (hu.trans h.symm))]
        simp
      · simp only [urlScoreOf] at ih ⊢
        rw [List.find?_cons_of_neg _ (by simp [hu]),
          List.find?_cons_of_neg _ (by simp [hu])]
        exact ih

theorem urlScoreOf_buildScores (L : List DocumentReference) :
    ∀ (acc : List (String × DocumentReference × ℚ)) (rank : Nat) (u : String),
      urlScoreOf (buildScores acc rank L) u = urlScoreOf acc u + rrfSumFrom rank u L := by
  induction L with
  | nil => intro acc rank u; simp [buildScores, rrfSumFrom]
  | cons r rest ih =>
    intro acc rank u
    rw [buildScores, ih, urlScoreOf_rrfInsert, rrfSumFrom, add_assoc]

theorem rrfInsert_mem (acc : List (String × DocumentReference × ℚ)) (ref : DocumentReference)
    (sc : ℚ) :
    ∀ e ∈ rrfInsert acc ref sc,
      (∃ s', (e.1, e.2.1, s') ∈ acc) ∨ (e.2.1 = ref ∧ e.1 = ref.url) := by
  induction acc with
  | nil =>
    intro e he
    simp only [rrfInsert, List.mem_singleton] at he
    subst he
    exact Or.inr ⟨rfl, rfl⟩
  | cons hd rest ih =>
    obtain ⟨v, r0, s0⟩ := hd
    intro e he
    rw [rrfInsert] at he
    by_cases hv : v = ref.url
    · rw [if_pos hv] at he
      rcases List.mem_cons.mp he with rfl | hrest
      · exact Or.inl ⟨s0, List.mem_cons_self _ _⟩
      · exact Or.inl ⟨e.2.2, by
          refine List.mem_cons_of_mem _ ?_
          have : (e.1, e.2.1, e.2.2) = e := rfl
          rw [this]
          exact hrest⟩
    · rw [if_neg hv] at he
      rcases List.mem_cons.mp he with rfl | hrest
      · exact Or.inl ⟨s0, List.mem_cons_self _ _⟩
      · rcases ih e hrest with ⟨s', hs'⟩ | hr
        · exact Or.inl ⟨s', List.mem_cons_of_mem _ hs'⟩
        · exact Or.inr hr

theorem buildScores_mem (L : List DocumentReference) :
    ∀ (acc : List (String × DocumentReference × ℚ)) (rank : Nat) (e : String × DocumentReference × ℚ),
      e ∈ buildScores acc rank L →
        (∃ s', (e.1, e.2.1, s') ∈ acc) ∨ (e.2.1 ∈ L ∧ e.1 = e.2.1.url) := by
  induction L with
  | nil =>
    intro acc rank e he
    rw [buildScores] at he
    exact Or.inl ⟨e.2.2, by
      have : (e.1, e.2.1, e.2.2) = e := rfl
      rw [this]; exact he⟩
  | cons r rest ih =>
    intro acc rank e he
    rw [buildScores] at he
    rcases ih _ _ _ he with ⟨s', hs'⟩ | hr
    · rcases rrfInsert_mem acc r _ _ hs' with ⟨s'', hs''⟩ | ⟨h1, h2⟩
      · exact Or.inl ⟨s'', hs''⟩
      · exact Or.inr ⟨by rw [h1]; exact List.mem_cons_self _ _, by rw [h2, h1]⟩
    · exact Or.inr ⟨List.mem_cons_of_mem _ hr.1, hr.2⟩

theorem rrfInsert_keys_sub (acc : List (String × DocumentReference × ℚ))
    (ref : DocumentReference) (sc : ℚ) (u : String)
    (h : u ∈ (rrfInsert acc ref sc).map (fun e => e.1)) :
    u ∈ acc.map (fun e => e.1) ∨ u = ref.url := by
  induction acc with
  | nil => simpa [rrfInsert] using h
  | cons hd rest ih =>
    obtain ⟨v, r0, s0⟩ := hd
    rw [rrfInsert] at h
    by_cases hv : v = ref.url
    · rw [if_pos hv] at h
      simp only [List.map_cons, List.mem_cons] at h
      rcases h with rfl | h'
      · exact Or.inl (by simp)
      · exact Or.inl (by simp [h'])
    · rw [if_neg hv] at h
      simp only [List.map_cons, List.mem_cons] at h
      rcases h with rfl | h'
      · exact Or.inl (by simp)
      · rcases ih h' with hmem | hurl
        · exact Or.inl (by simp [hmem])
        · exact Or.inr hurl

theorem rrfInsert_keys_nodup (acc : List (String × DocumentReference × ℚ))
    (ref : DocumentReference) (sc : ℚ)
    (h : (acc.map (fun e => e.1)).Nodup) :
    ((rrfInsert acc ref sc).map (fun e => e.1)).Nodup := by
  induction acc with
  | nil => simp [rrfInsert]
  | cons hd rest ih =>
    obtain ⟨v, r0, s0⟩ := hd
    rw [rrfInsert]
    simp only [List.map_cons, List.nodup_cons] at h
    by_cases hv : v = ref.url
    · rw [if_pos hv]
      simp only [List.map_cons, List.nodup_cons]
      exact h
    · rw [if_neg hv]
      simp only [List.map_cons, List.nodup_cons]
      refine ⟨fun hmem => ?_, ih h.2⟩
      rcases rrfInsert_keys_sub rest ref sc v hmem with hmem' | hurl
      · exact h.1 hmem'
      · exact hv hurl

theorem buildScores_keys_nodup (L : List DocumentReference) :
    ∀ (acc : List (String × DocumentReference × ℚ)) (rank : Nat),
      (acc.map (fun e => e.1)).Nodup → ((buildScores acc rank L).map (fun e => e.1)).Nodup := by
  induction L with
  | nil => intro acc rank h; rw [buildScores]; exact h
  | cons r rest ih =>
    intro acc rank h
    rw [buildScores]
    exact ih _ _ (rrfInsert_keys_nodup acc r _ h)

theorem find?_entry_of_keys_nodup (xs : List (String × DocumentReference × ℚ))
    (hnd : (xs.map (fun e => e.1)).Nodup) (e : String × DocumentReference × ℚ) (he : e ∈ xs) :
    xs.find? (fun x => x.1 = e.1) = some e := by
  induction xs with
  | nil => cases he
  | cons hd rest ih =>
    simp only [List.map_cons, List.nodup_cons] at hnd
    rcases List.mem_cons.mp he with rfl | hrest
    · exact List.find?_cons_of_pos _ (by simp)
    · have hne : ¬ (hd.1 = e.1) := by
        intro hcontra
        exact hnd.1 (hcontra ▸ List.mem_map_of_mem (fun x => x.1) hrest)
      rw [List.find?_cons_of_neg _ (by simpa using hne)]
      exact ih hnd.2 hrest

/-- C2: hybrid-mode fusion assigns the candidate at 0-based rank `r` the
contribution `1/(60 + r + 1)`, groups candidates by URL and sums per group;
each fused reference carries the summed score of its URL, is retagged
hybrid, and represents a URL occurring among the candidates; fused output
is sorted descending by score; and a URL at ranks 0 and 2 gets exactly
`1/61 + 1/63`. -/
theorem kb_c2_rrf_fusion :
    (∀ (references : List DocumentReference) (limit : Nat) (x : DocumentReference),
        x ∈ deduplicate_references references limit →
          x.retrieval_mode = RetrievalMode.hybrid
          ∧ x.score = rrfTotal references x.url
          ∧ ∃ r ∈ references, r.url = x.url)
    ∧ (∀ (references : List DocumentReference) (limit : Nat),
        List.Pairwise (fun a b => b.score ≤ a.score) (deduplicate_references references limit))
    ∧ deduplicate_references rrfCandidates 10 = [rrfFusedU, rrfFusedV] := by
  refine ⟨?_, ?_, ?_⟩
  · intro references limit x hx
    rw [deduplicate_references] at hx
    have hx1 := List.mem_of_mem_take hx
    have hx2 := (List.perm_insertionSort
       (fun a b : DocumentReference => b.score ≤ a.score) _).mem_iff.mp hx1
    rw [List.mem_map] at hx2
    obtain ⟨e, he, rfl⟩ := hx2
    have hnd := buildScores_keys_nodup references [] 0 (by simp)
    have hmem := buildScores_mem references [] 0 e he
    rcases hmem with ⟨s', hs'⟩ | ⟨hin, hurl⟩
    · cases hs'
    · have hfind := find?_entry_of_keys_nodup _ hnd e he
      have hscore := urlScoreOf_buildScores references [] 0 e.1
      have h0 : urlScoreOf [] e.1 = 0 := rfl
      rw [h0, zero_add] at hscore
      have hval : urlScoreOf (buildScores [] 0 references) e.1 = e.2.2 := by
        rw [urlScoreOf, hfind]
        rfl
      refine ⟨rfl, ?_, ⟨e.2.1, hin, by simp [hurl]⟩⟩
      show e.2.2 = rrfTotal references e.2.1.url
      rw [← hurl, rrfTotal, ← hscore, hval]
  · intro references limit
    rw [deduplicate_references]
    haveI : IsTotal DocumentReference (fun a b => b.score ≤ a.score) :=
      ⟨fun a b => le_total b.score a.score⟩
    haveI : IsTrans DocumentReference (fun a b => b.score ≤ a.score) :=
      ⟨fun _ _ _ h1 h2 => le_trans h2 h1⟩
    exact (List.sorted_insertionSort _ _).sublist (List.take_sublist _ _)
  · rw [deduplicate_references]
    norm_num [rrfCandidates, rrfFusedU, rrfFusedV, buildScores, rrfInsert,
      List.insertionSort, List.orderedInsert]

/-- C2 witness: the per-reference clause applied to the first fused result
of the concrete example. -/
theorem kb_c2_witness :
    rrfFusedU.retrieval_mode = RetrievalMode.hybrid
    ∧ rrfFusedU.score = rrfTotal rrfCandidates rrfFusedU.url
    ∧ ∃ r ∈ rrfCandidates, r.url = rrfFusedU.url :=
  kb_c2_rrf_fusion.1 rrfCandidates 10 rrfFusedU
    (by rw [kb_c2_rrf_fusion.2.2]; exact List.mem_cons_self _ _)

/-! ## C4 — bounded graph traversal -/

theorem reachesAt_pos {g : GraphState} {start : Nat} {ets : Option (List String)} {k : Nat}
    {e : Edge} (h : ReachesAt g start ets k e) : 1 ≤ k := by
  cases h <;> omega

theorem reachesAt_mem_edges {g : GraphState} {start : Nat} {ets : Option (List String)} {k : Nat}
    {e : Edge} (h : ReachesAt g start ets k e) : e ∈ g.edges := by
  cases h <;> assumption

theorem traverseLevel_mem (g : GraphState) (start : Nat) (ets : Option (List String)) :
    ∀ k, 1 ≤ k → ∀ e, e ∈ traverseLevel g start ets k ↔ ReachesAt g start ets k e := by
  intro k
  induction k with
  | zero => omega
  | succ n ih =>
    intro _ e
    cases n with
    | zero =>
      rw [traverseLevel, List.mem_filter]
      simp only [Bool.and_eq_true, decide_eq_true_eq]
      constructor
      · rintro ⟨he, hs, hok⟩
        exact ReachesAt.base e he hs hok
      · intro h
        cases h with
        | base _ he hs hok => exact ⟨he, hs, hok⟩
        | step k p _ hp => exact absurd (reachesAt_pos hp) (by omega)
    | succ m =>
      rw [traverseLevel, List.mem_filter]
      simp only [Bool.and_eq_true, decide_eq_true_eq, List.any_eq_true]
      constructor
      · rintro ⟨he, hok, p, hp, hs⟩
        exact ReachesAt.step (m + 1) p e ((ih (by omega) p).mp hp) he hs hok
      · intro h
        cases h with
        | step k p _ hp he hs hok =>
          exact ⟨he, hok, p, (ih (by omega) p).mpr hp, hs⟩

theorem traversePathEdges_mem (g : GraphState) (start maxHops : Nat)
    (ets : Option (List String)) (hm : 1 ≤ maxHops) (e : Edge) :
    e ∈ traversePathEdges g start maxHops ets ↔
      ∃ k, 1 ≤ k ∧ k ≤ maxHops ∧ ReachesAt g start ets k e := by
  rw [traversePathEdges, List.mem_flatMap]
  have hmax : max maxHops 1 = maxHops := by omega
  rw [hmax]
  constructor
  · rintro ⟨k, hk, hmem⟩
    rw [List.mem_range'_1] at hk
    have hk1 : 1 ≤ k := hk.1
    exact ⟨k, hk1, by omega, (traverseLevel_mem g start ets k hk1 e).mp hmem⟩
  · rintro ⟨k, hk1, hk2, hr⟩
    exact ⟨k, List.mem_range'_1.mpr ⟨hk1, by omega⟩,
      (traverseLevel_mem g start ets k hk1 e).mpr hr⟩

theorem node_find?_iff (g : GraphState) (hn : (g.nodes.map (fun n => n.id)).Nodup)
    (x : Node) (i : Nat) :
    g.nodes.find? (fun n => n.id = i) = some x ↔ (x ∈ g.nodes ∧ x.id = i) := by
  constructor
  · intro h
    exact ⟨List.mem_of_find?_eq_some h, by simpa using List.find?_some h⟩
  · rintro ⟨hmem, rfl⟩
    cases hfind : g.nodes.find? (fun n => n.id = x.id) with
    | none =>
      rw [List.find?_eq_none] at hfind
      exact absurd (by simp) (hfind x hmem)
    | some y =>
      have hy : y ∈ g.nodes := List.mem_of_find?_eq_some hfind
      have hyid : y.id = x.id := by simpa using List.find?_some hfind
      rw [List.inj_on_of_nodup_map hn hy hmem hyid]

/-- C4: `traverse` returns exactly the triples whose edge is reachable by a
filter-respecting chain of at most `maxHops` outgoing edges from the start
node and whose endpoint rows exist, deduplicated by edge id; and on the
chain A → B → C, one hop yields only A → B while two hops yield both
edges. -/
theorem kb_c4_traverse :
    (∀ (g : GraphState) (start maxHops : Nat) (ets : Option (List String)),
        1 ≤ maxHops → (g.nodes.map (fun n => n.id)).Nodup →
        (g.edges.map (fun e => e.id)).Nodup →
        (∀ (sn : Node) (e : Edge) (tn : Node),
            (sn, e, tn) ∈ traverse g start maxHops ets ↔
              (∃ k, 1 ≤ k ∧ k ≤ maxHops ∧ ReachesAt g start ets k e)
              ∧ sn ∈ g.nodes ∧ sn.id = e.source_id ∧ tn ∈ g.nodes ∧ tn.id = e.target_id)
        ∧ ((traverse g start maxHops ets).map (fun tr => tr.2.1.id)).Nodup)
    ∧ traverse chainGraph 1 1 none = [(chainNodeA, chainEdgeAB, chainNodeB)]
    ∧ traverse chainGraph 1 2 none
        = [(chainNodeA, chainEdgeAB, chainNodeB), (chainNodeB, chainEdgeBC, chainNodeC)] := by
  refine ⟨?_, by decide, by decide⟩
  intro g start maxHops ets hm hn he
  have hjoin : ∀ x : Node × Edge × Node,
      x ∈ (traversePathEdges g start maxHops ets).filterMap (fun e =>
        match g.nodes.find? (fun n => n.id = e.source_id),
              g.nodes.find? (fun n => n.id = e.target_id) with
        | some sn, some tn => some (sn, e, tn)
        | _, _ => none) →
      x.2.1 ∈ traversePathEdges g start maxHops ets
        ∧ g.nodes.find? (fun n => n.id = x.2.1.source_id) = some x.1
        ∧ g.nodes.find? (fun n => n.id = x.2.1.target_id) = some x.2.2 := by
    intro x hx
    rw [List.mem_filterMap] at hx
    obtain ⟨a, ha, heq⟩ := hx
    cases hfs : g.nodes.find? (fun n => n.id = a.source_id) with
    | none => rw [hfs] at heq; cases heq
    | some sn =>
      cases hft : g.nodes.find? (fun n => n.id = a.target_id) with
      | none => rw [hfs, hft] at heq; cases heq
      | some tn =>
        rw [hfs, hft] at heq
        cases heq
        exact ⟨ha, hfs, hft⟩
  constructor
  · intro sn e tn
    rw [traverse, List.mem_dedup]
    constructor
    · intro hx
      have h := hjoin (sn, e, tn) hx
      refine ⟨(traversePathEdges_mem g start maxHops ets hm e).mp h.1, ?_, ?_, ?_, ?_⟩
      · exact ((node_find?_iff g hn sn e.source_id).mp h.2.1).1
      · exact ((node_find?_iff g hn sn e.source_id).mp h.2.1).2
      · exact ((node_find?_iff g hn tn e.target_id).mp h.2.2).1
      · exact ((node_find?_iff g hn tn e.target_id).mp h.2.2).2
    · rintro ⟨hreach, hsn, hsnid, htn, htnid⟩
      rw [List.mem_filterMap]
      refine ⟨e, (traversePathEdges_mem g start maxHops ets hm e).mpr hreach, ?_⟩
      rw [(node_find?_iff g hn sn e.source_id).mpr ⟨hsn, hsnid⟩,
        (node_find?_iff g hn tn e.target_id).mpr ⟨htn, htnid⟩]
  · refine List.Nodup.map_on ?_ (List.nodup_dedup _)
    intro x hx y hy hid
    have hx' := hjoin x (List.mem_dedup.mp hx)
    have hy' := hjoin y (List.mem_dedup.mp hy)
    have hxe : x.2.1 ∈ g.edges :=
      reachesAt_mem_edges
        (((traversePathEdges_mem g start maxHops ets hm x.2.1).mp hx'.1).choose_spec.2.2)
    have hye : y.2.1 ∈ g.edges :=
      reachesAt_mem_edges
        (((traversePathEdges_mem g start maxHops ets hm y.2.1).mp hy'.1).choose_spec.2.2)
    have hee : x.2.1 = y.2.1 := List.inj_on_of_nodup_map he hxe hye hid
    have h1 : x.1 = y.1 := by
      have := hx'.2.1
      rw [hee] at this
      rw [hy'.2.1] at this
      exact (Option.some.injEq _ _ ▸ this).symm
    have h2 : x.2.2 = y.2.2 := by
      have := hx'.2.2
      rw [hee] at this
      rw [hy'.2.2] at this
      exact (Option.some.injEq _ _ ▸ this).symm
    calc x = (x.1, x.2.1, x.2.2) := rfl
    _ = (y.1, y.2.1, y.2.2) := by rw [h1, hee, h2]
    _ = y := rfl

/-- C4 witness: the general clause applied to the concrete chain graph. -/
theorem kb_c4_witness :
    ((traverse chainGraph 1 2 none).map (fun tr => tr.2.1.id)).Nodup :=
  (kb_c4_traverse.1 chainGraph 1 2 none (by decide) (by decide) (by decide)).2

/-! ## C3 — failure path of index_document -/

theorem find?_save_document (docs : List Document) (d : Document) :
    (save_document docs d).find? (fun x => x.id = d.id) = some d := by
  rw [save_document, List.find?_append]
  have h1 : (docs.filter (fun x =>
      !(x.id = d.id) && !(d.external_id.isSome && x.external_id = d.external_id))).find?
        (fun x => x.id = d.id) = none := by
    rw [List.find?_eq_none]
    intro a ha
    rw [List.mem_filter, Bool.and_eq_true] at ha
    simpa using (by simpa using ha.2.1 : ¬ (a.id = d.id))
  rw [h1]
  simp

theorem find?_update_document (docs : List Document) (d : Document) (a : Document)
    (h : docs.find? (fun x => x.id = d.id) = some a) :
    (update_document docs d).find? (fun x => x.id = d.id)
      = some { d with id := a.id, external_id := a.external_id } := by
  induction docs with
  | nil => cases h
  | cons x rest ih =>
    by_cases hx : x.id = d.id
    · rw [List.find?_cons_of_pos _ (by simpa using hx)] at h
      cases h
      rw [update_document, List.map_cons, if_pos hx]
      exact List.find?_cons_of_pos _ (by simpa using hx)
    · rw [List.find?_cons_of_neg _ (by simpa using hx)] at h
      have ih' := ih h
      rw [update_document, List.map_cons, if_neg hx]
      rw [List.find?_cons_of_neg _ (by simpa using hx)]
      rw [update_document] at ih'
      exact ih'

/-- C3: whenever `index_document` fails (given that the document row itself
was saved in step 1 — store writes are modelled as reliable, collaborator
steps 2–7 and the final status update may raise), the raised pipeline error
carries the document id and the original message; the in-memory document is
marked `failed` and that status is persisted when the secondary update
write succeeds, while a failing secondary write is swallowed (the record
keeps the `processing` status written in step 1); in every case the
document record is still present — never deleted — on the failure path. -/
theorem kb_c3_failure_path :
    ∀ (cv : Collab) (graphEnabled : Bool) (st : PipelineState) (doc : Document)
      (err : PipelineError),
      (index_document cv graphEnabled st doc).2 = Except.error err →
      err.document_id = doc.id
      ∧ (∃ e0, err.message = "Failed to index document: " ++ e0)
      ∧ (index_document cv graphEnabled st doc).1.docs.find? (fun x => x.id = doc.id)
          = some (if cv.update_document_ok
                  { doc with
                      status := DocumentStatus.failed,
                      content_hash := some (cv.compute_content_hash doc.content) }
              then { doc with
                  status := DocumentStatus.failed,
                      content_hash := some (cv.compute_content_hash doc.content) }
              else { doc with
                  status := DocumentStatus.processing,
                      content_hash := some (cv.compute_content_hash doc.content) }) := by
  intro cv g st doc err h
  have hfail : ∀ (stX : PipelineState) (e0 : String),
      (index_document cv g st doc)
        = indexFailure cv stX
            { doc with
                status := DocumentStatus.processing,
                content_hash := some (cv.compute_content_hash doc.content) } e0 →
      stX.docs = save_document st.docs
        { doc with
            status := DocumentStatus.processing,
            content_hash := some (cv.compute_content_hash doc.content) } →
      err.document_id = doc.id
      ∧ (∃ e1, err.message = "Failed to index document: " ++ e1)
      ∧ (index_document cv g st doc).1.docs.find? (fun x => x.id = doc.id)
          = some (if cv.update_document_ok
                  { doc with
                      status := DocumentStatus.failed,
                      content_hash := some (cv.compute_content_hash doc.content) }
              then { doc with
                  status := DocumentStatus.failed,
                      content_hash := some (cv.compute_content_hash doc.content) }
              else { doc with
                  status := DocumentStatus.processing,
                      content_hash := some (cv.compute_content_hash doc.content) }) := by
    intro stX e0 heq hX
    rw [heq] at h ⊢
    simp only [indexFailure] at h ⊢
    cases hupd : cv.update_document_ok
        { doc with
            status := DocumentStatus.failed,
            content_hash := some (cv.compute_content_hash doc.content) } with
    | false =>
      simp only [Bool.false_eq_true, if_false]
      obtain rfl : ({ message := "Failed to index document: " ++ e0, document_id := doc.id }
          : PipelineError) = err := by
        simpa using h
      refine ⟨rfl, ⟨e0, rfl⟩, ?_⟩
      rw [hX]
      simpa using find?_save_document st.docs
        { doc with
            status := DocumentStatus.processing,
            content_hash := some (cv.compute_content_hash doc.content) }
    | true =>
      simp only [eq_self_iff_true, if_true]
      obtain rfl : ({ message := "Failed to index document: " ++ e0, document_id := doc.id }
          : PipelineError) = err := by
        simpa using h
      refine ⟨rfl, ⟨e0, rfl⟩, ?_⟩
      have hf := find?_update_document stX.docs
        { doc with
            status := DocumentStatus.failed,
            content_hash := some (cv.compute_content_hash doc.content) }
        { doc with
            status := DocumentStatus.processing,
            content_hash := some (cv.compute_content_hash doc.content) }
        (by
          rw [hX]
          simpa using find?_save_document st.docs
            { doc with
                status := DocumentStatus.processing,
                content_hash := some (cv.compute_content_hash doc.content) })
      simpa using hf
  cases hc : cv.chunk_document
      { doc with
          status := DocumentStatus.processing,
          content_hash := some (cv.compute_content_hash doc.content) } with
  | error e0 =>
    have heq : index_document cv g st doc
        = indexFailure cv
            { st with
                docs := save_document st.docs
                  { doc with
                      status := DocumentStatus.processing,
                      content_hash := some (cv.compute_content_hash doc.content) } }
            { doc with
                status := DocumentStatus.processing,
                content_hash := some (cv.compute_content_hash doc.content) }
            e0 := by
      simp only [index_document, hc]
    exact hfail _ e0 heq rfl
  | ok chunks0 =>
    cases hsc : cv.save_chunks_ok (chunks0.map (fun c =>
        { c with section_anchor := heading_path_to_anchor cv.nfkd c.heading_path })) with
    | false =>
      have heq : index_document cv g st doc
          = indexFailure cv
              { st with
                  docs := save_document st.docs
                    { doc with
                        status := DocumentStatus.processing,
                        content_hash := some (cv.compute_content_hash doc.content) } }
              { doc with
                  status := DocumentStatus.processing,
                  content_hash := some (cv.compute_content_hash doc.content) }
              "save_chunks" := by
        simp only [index_document, hc, hsc, Bool.not_false, if_true]
      exact hfail _ "save_chunks" heq rfl
    | true =>
      cases hemb : cv.embed_chunks (chunks0.map (fun c =>
          { c with section_anchor := heading_path_to_anchor cv.nfkd c.heading_path })) with
      | error e0 =>
        have heq : index_document cv g st doc
            = indexFailure cv
                { st with
                    docs := save_document st.docs
                      { doc with
                          status := DocumentStatus.processing,
                          content_hash := some (cv.compute_content_hash doc.content) },
                    chunks := save_chunks st.chunks (chunks0.map (fun c =>
                      { c with
                          section_anchor := heading_path_to_anchor cv.nfkd c.heading_path })) }
                { doc with
                    status := DocumentStatus.processing,
                    content_hash := some (cv.compute_content_hash doc.content) }
                e0 := by
          simp only [index_document, hc, hsc, hemb, Bool.not_true, Bool.false_eq_true, if_false]
        exact hfail _ e0 heq rfl
      | ok embs =>
        cases hup : cv.upsert_ok embs with
        | false =>
          have heq : index_document cv g st doc
              = indexFailure cv
                  { st with
                      docs := save_document st.docs
                        { doc with
                            status := DocumentStatus.processing,
                            content_hash := some (cv.compute_content_hash doc.content) },
                      chunks := save_chunks st.chunks (chunks0.map (fun c =>
                        { c with
                            section_anchor := heading_path_to_anchor cv.nfkd c.heading_path })) }
                  { doc with
                      status := DocumentStatus.processing,
                      content_hash := some (cv.compute_content_hash doc.content) }
                  "upsert_embeddings" := by
            simp only [index_document, hc, hsc, hemb, hup, Bool.not_true, Bool.not_false,
              Bool.false_eq_true, if_false, if_true]
          exact hfail _ "upsert_embeddings" heq rfl
        | true =>
          cases hex : (if g then
              cv.extract_document
                { doc with
                    status := DocumentStatus.processing,
                    content_hash := some (cv.compute_content_hash doc.content) }
                (chunks0.map (fun c =>
                  { c with section_anchor := heading_path_to_anchor cv.nfkd c.heading_path }))
            else Except.ok []) with
          | error e0 =>
            have heq : index_document cv g st doc
                = indexFailure cv
                    { st with
                        docs := save_document st.docs
                          { doc with
                              status := DocumentStatus.processing,
                              content_hash := some (cv.compute_content_hash doc.content) },
                        chunks := save_chunks st.chunks (chunks0.map (fun c =>
                          { c with
                              section_anchor :=
                                heading_path_to_anchor cv.nfkd c.heading_path })),
                        vectors := upsert_embeddings st.vectors embs }
                    { doc with
                        status := DocumentStatus.processing,
                        content_hash := some (cv.compute_content_hash doc.content) }
                    e0 := by
              simp only [index_document, hc, hsc, hemb, hup, hex, Bool.not_true,
                Bool.false_eq_true, if_false, if_true]
            exact hfail _ e0 heq rfl
          | ok nds =>
            cases hupd2 : cv.update_document_ok
                { doc with
                    status := DocumentStatus.indexed,
                    content_hash := some (cv.compute_content_hash doc.content) } with
            | true =>
              exfalso
              simp only [index_document, hc, hsc, hemb, hup, hex, hupd2, Bool.not_true,
                Bool.false_eq_true, if_false, if_true] at h
              exact Except.noConfusion h
            | false =>
              have heq : index_document cv g st doc
                  = indexFailure cv
                      { st with
                          docs := save_document st.docs
                            { doc with
                                status := DocumentStatus.processing,
                                content_hash := some (cv.compute_content_hash doc.content) },
                          chunks := save_chunks st.chunks (chunks0.map (fun c =>
                            { c with
                                section_anchor :=
                                  heading_path_to_anchor cv.nfkd c.heading_path })),
                          vectors := upsert_embeddings st.vectors embs,
                          graph := (if g then
                              insertExtractedNodes st.graph st.next_id doc.id nds
                            else (st.graph, st.next_id)).1,
                          next_id := (if g then
                              insertExtractedNodes st.graph st.next_id doc.id nds
                            else (st.graph, st.next_id)).2 }
                      { doc with
                          status := DocumentStatus.processing,
                          content_hash := some (cv.compute_content_hash doc.content) }
                      "update_document" := by
                simp only [index_document, hc, hsc, hemb, hup, hex, hupd2, Bool.not_true,
                  Bool.false_eq_true, if_false, if_true]
              exact hfail _ "update_document" heq rfl

/-- C3 witness: the failure-path clauses at a concrete failing chunker. -/
theorem kb_c3_witness :
    ({ message := "Failed to index document: boom", document_id := 5 }
        : PipelineError).document_id = failingDoc.id
    ∧ (∃ e0, ({ message := "Failed to index document: boom", document_id := 5 }
        : PipelineError).message = "Failed to index document: " ++ e0)
    ∧ (index_document failingCollab false {} failingDoc).1.docs.find?
          (fun x => x.id = failingDoc.id)
        = some (if failingCollab.update_document_ok failingDocFailed then failingDocFailed
            else failingDocProcessing) := by
  have h := kb_c3_failure_path failingCollab false {} failingDoc
    { message := "Failed to index document: boom", document_id := 5 } rfl
  exact h

/-- C10: every list produced by `scan_files`, `get_changed_files` and
`get_deleted_files` is sorted in ascending lexicographic order, whatever
order git or the filesystem walk reported the files in — a postcondition of
the shared `_filter_files` step. -/
theorem kb_c10_scanner_sorted (env : ScannerEnv) (config : RepositoryConfig)
    (since_commit : String) :
    List.Sorted (· ≤ ·) (scan_files env config)
    ∧ List.Sorted (· ≤ ·) (get_changed_files env config since_commit)
    ∧ List.Sorted (· ≤ ·) (get_deleted_files env config since_commit) := by
  refine ⟨?_, ?_, ?_⟩
  · rw [scan_files]
    cases env.ls_files <;> exact sorted_filter_files _ _
  · rw [get_changed_files]
    cases env.diff_since since_commit with
    | none =>
      rw [scan_files]
      cases env.ls_files <;> exact sorted_filter_files _ _
    | some out => exact sorted_filter_files _ _
  · rw [get_deleted_files]
    cases env.diff_deleted_since since_commit with
    | none => exact List.sorted_nil
    | some out => exact sorted_filter_files _ _

/-! ## C1 — sync idempotence: document-store lookup lemmas -/

theorem extId_inj (a p q : String) (h : a ++ ":" ++ p = a ++ ":" ++ q) : p = q := by
  have hd := congrArg String.data h
  rw [String.data_append, String.data_append, String.data_append, String.data_append] at hd
  exact String.ext (List.append_cancel_left hd)

theorem mem_of_lookup {docs : List Document} {e : String} {r : Document}
    (h : get_document_by_external_id docs e = some r) :
    r ∈ docs ∧ r.external_id = some e := by
  refine ⟨List.mem_of_find?_eq_some h, ?_⟩
  have := List.find?_some h
  simpa using this

theorem lookup_eq_none_iff (docs : List Document) (e : String) :
    get_document_by_external_id docs e = none ↔ ∀ x ∈ docs, ¬ x.external_id = some e := by
  rw [get_document_by_external_id, List.find?_eq_none]
  simp

theorem doc_id_inj {docs : List Document} (hn : (docs.map (fun d => d.id)).Nodup)
    {x y : Document} (hx : x ∈ docs) (hy : y ∈ docs) (h : x.id = y.id) : x = y :=
  List.inj_on_of_nodup_map hn hx hy h

theorem ext_unique_of_nodup {docs : List Document}
    (hn : (docs.filterMap (fun d => d.external_id)).Nodup)
    {x y : Document} (hx : x ∈ docs) (hy : y ∈ docs) {e : String}
    (hxe : x.external_id = some e) (hye : y.external_id = some e) : x = y := by
  induction docs with
  | nil => cases hx
  | cons z rest ih =>
    cases hz : z.external_id with
    | none =>
      rw [List.filterMap_cons, hz] at hn
      rcases List.mem_cons.mp hx with rfl | hx'
      · rw [hz] at hxe; cases hxe
      rcases List.mem_cons.mp hy with rfl | hy'
      · rw [hz] at hye; cases hye
      exact ih hn hx' hy'
    | some a =>
      rw [List.filterMap_cons, hz] at hn
      rcases List.mem_cons.mp hx with rfl | hx' <;> rcases List.mem_cons.mp hy with rfl | hy'
      · rfl
      · exfalso
        have hmem : e ∈ rest.filterMap (fun d => d.external_id) :=
          List.mem_filterMap.mpr ⟨y, hy', hye⟩
        have ha : a = e := by rw [hz] at hxe; exact Option.some.inj hxe
        exact (List.nodup_cons.mp hn).1 (ha ▸ hmem)
      · exfalso
        have hmem : e ∈ rest.filterMap (fun d => d.external_id) :=
          List.mem_filterMap.mpr ⟨x, hx', hxe⟩
        have ha : a = e := by rw [hz] at hye; exact Option.some.inj hye
        exact (List.nodup_cons.mp hn).1 (ha ▸ hmem)
      · exact ih (List.nodup_cons.mp hn).2 hx' hy'

theorem find?_filter_of_pred {α} (p q : α → Bool) :
    ∀ (l : List α) (r : α), l.find? p = some r → q r = true → (l.filter q).find? p = some r := by
  intro l
  induction l with
  | nil => intro r h; cases h
  | cons x rest ih =>
    intro r h hq
    by_cases hx : p x = true
    · rw [List.find?_cons_of_pos _ hx] at h
      cases h
      rw [List.filter_cons_of_pos hq]
      exact List.find?_cons_of_pos _ hx
    · rw [List.find?_cons_of_neg _ hx] at h
      by_cases hqx : q x = true
      · rw [List.filter_cons_of_pos hqx, List.find?_cons_of_neg _ hx]
        exact ih r h hq
      · rw [List.filter_cons_of_neg (by simpa using hqx)]
        exact ih r h hq

theorem find?_filter_none {α} (p q : α → Bool) (l : List α) (h : l.find? p = none) :
    (l.filter q).find? p = none := by
  rw [List.find?_eq_none] at h ⊢
  intro a ha
  exact h a (List.mem_of_mem_filter ha)

theorem lookup_save_self (docs : List Document) (d : Document) (e : String)
    (hd : d.external_id = some e) :
    get_document_by_external_id (save_document docs d) e = some d := by
  rw [save_document, get_document_by_external_id, List.find?_append]
  have h1 : (docs.filter (fun x =>
      !(x.id = d.id) && !(d.external_id.isSome && x.external_id = d.external_id))).find?
        (fun x => x.external_id = some e) = none := by
    rw [List.find?_eq_none]
    intro a ha
    rw [List.mem_filter] at ha
    have h2 := ha.2
    simp only [hd, Option.isSome_some, Bool.true_and, Bool.and_eq_true, Bool.not_eq_true',
      decide_eq_false_iff_not] at h2
    simpa using h2.2
  rw [h1]
  simp [hd]

theorem lookup_save_of_ne (docs : List Document) (d : Document) (e e' : String) (r : Document)
    (hd : d.external_id = some e) (hne : ¬ e' = e)
    (h : get_document_by_external_id docs e' = some r) (hid : ¬ r.id = d.id) :
    get_document_by_external_id (save_document docs d) e' = some r := by
  have hre := (mem_of_lookup h).2
  have hq : ((fun x => !(x.id = d.id)
      && !(d.external_id.isSome && x.external_id = d.external_id)) r) = true := by
    simp only [hd, Option.isSome_some, Bool.true_and, Bool.and_eq_true, Bool.not_eq_true',
      decide_eq_false_iff_not, hre]
    exact ⟨hid, fun hcon => hne (by simpa using hcon)⟩
  have h0 : docs.find? (fun x => decide (x.external_id = some e')) = some r := h
  have h1 := find?_filter_of_pred (fun x => decide (x.external_id = some e'))
    (fun x => !(x.id = d.id) && !(d.external_id.isSome && x.external_id = d.external_id))
    docs r h0 hq
  rw [save_document, get_document_by_external_id, List.find?_append, h1]
  rfl

theorem lookup_save_none (docs : List Document) (d : Document) (e e' : String)
    (hd : d.external_id = some e) (hne : ¬ e' = e)
    (h : get_document_by_external_id docs e' = none) :
    get_document_by_external_id (save_document docs d) e' = none := by
  have h0 : docs.find? (fun x => decide (x.external_id = some e')) = none := h
  have h1 := find?_filter_none (fun x => decide (x.external_id = some e'))
    (fun x => !(x.id = d.id) && !(d.external_id.isSome && x.external_id = d.external_id)) docs h0
  rw [save_document, get_document_by_external_id, List.find?_append, h1]
  simp [hd]
  exact fun hcon => hne hcon.symm

theorem lookup_update_eq (docs : List Document) (d : Document) (e' : String) :
    get_document_by_external_id (update_document docs d) e'
      = (get_document_by_external_id docs e').map
          (fun r => if r.id = d.id then { d with id := r.id, external_id := r.external_id }
            else r) := by
  induction docs with
  | nil => rfl
  | cons x rest ih =>
    by_cases hx : x.external_id = some e'
    · rw [update_document, List.map_cons, get_document_by_external_id,
        List.find?_cons_of_pos _ (by by_cases hxd : x.id = d.id <;> simp [hxd, hx]),
        get_document_by_external_id, List.find?_cons_of_pos _ (by simpa using hx)]
      by_cases hxd : x.id = d.id <;> simp [hxd]
    · rw [update_document, List.map_cons, get_document_by_external_id,
        List.find?_cons_of_neg _ (by by_cases hxd : x.id = d.id <;> simp [hxd, hx]),
        get_document_by_external_id, List.find?_cons_of_neg _ (by simpa using hx)]
      exact ih

theorem lookup_update_self (docs : List Document) (d : Document) (e' : String) (r : Document)
    (h : get_document_by_external_id docs e' = some r) (hid : r.id = d.id) :
    get_document_by_external_id (update_document docs d) e'
      = some { d with id := r.id, external_id := r.external_id } := by
  rw [lookup_update_eq, h]
  simp [hid]

theorem lookup_update_of_ne (docs : List Document) (d : Document) (e' : String) (r : Document)
    (h : get_document_by_external_id docs e' = some r) (hid : ¬ r.id = d.id) :
    get_document_by_external_id (update_document docs d) e' = some r := by
  rw [lookup_update_eq, h]
  simp [hid]

theorem lookup_update_none (docs : List Document) (d : Document) (e' : String)
    (h : get_document_by_external_id docs e' = none) :
    get_document_by_external_id (update_document docs d) e' = none := by
  rw [lookup_update_eq, h]
  rfl

theorem save_document_ids_nodup (docs : List Document) (d : Document)
    (hn : (docs.map (fun x => x.id)).Nodup) :
    ((save_document docs d).map (fun x => x.id)).Nodup := by
  rw [save_document, List.map_append]
  refine List.Nodup.append (List.Nodup.sublist
    ((List.filter_sublist docs).map (fun x => x.id)) hn) (List.nodup_singleton _) ?_
  intro a ha hb
  rw [List.mem_map] at hb
  rcases hb with ⟨y, hy, hya⟩
  rw [List.mem_singleton] at hy
  subst hy
  rw [List.mem_map] at ha
  rcases ha with ⟨z, hz, hza⟩
  rw [List.mem_filter] at hz
  have h2 := hz.2
  simp only [Bool.and_eq_true, Bool.not_eq_true', decide_eq_false_iff_not] at h2
  exact h2.1 (hza.trans hya.symm)

theorem save_document_exts_nodup (docs : List Document) (d : Document)
    (hs : d.external_id.isSome = true)
    (hn : (docs.filterMap (fun x => x.external_id)).Nodup) :
    ((save_document docs d).filterMap (fun x => x.external_id)).Nodup := by
  obtain ⟨e, he⟩ := Option.isSome_iff_exists.mp hs
  rw [save_document, List.filterMap_append]
  refine List.Nodup.append (List.Nodup.sublist
    ((List.filter_sublist docs).filterMap (fun x => x.external_id)) hn) ?_ ?_
  · simp [List.filterMap_cons, he]
  · intro a ha hb
    rcases List.mem_filterMap.mp ha with ⟨y, hy, hye⟩
    rcases List.mem_filterMap.mp hb with ⟨z, hz, hze⟩
    rw [List.mem_singleton] at hz
    subst hz
    rw [List.mem_filter] at hy
    have h2 := hy.2
    rw [hye.trans hze.symm] at h2
    simp [hs] at h2

theorem update_document_map_id (docs : List Document) (d : Document) :
    (update_document docs d).map (fun x => x.id) = docs.map (fun x => x.id) := by
  induction docs with
  | nil => rfl
  | cons x rest ih =>
    simp only [update_document, List.map_cons]
    refine congrArg₂ List.cons ?_ ?_
    · by_cases hxd : x.id = d.id <;> simp [hxd]
    · have ih' := ih
      simp only [update_document] at ih'
      exact ih'

theorem update_document_filterMap_ext (docs : List Document) (d : Document) :
    (update_document docs d).filterMap (fun x => x.external_id)
      = docs.filterMap (fun x => x.external_id) := by
  induction docs with
  | nil => rfl
  | cons x rest ih =>
    have ih' := ih
    simp only [update_document] at ih'
    simp only [update_document, List.map_cons, List.filterMap_cons]
    have hx : (if x.id = d.id then { d with id := x.id, external_id := x.external_id }
        else x).external_id = x.external_id := by
      by_cases hxd : x.id = d.id <;> simp [hxd]
    rw [hx]
    cases hxe : x.external_id <;> simp [ih']

theorem mem_save_document {docs : List Document} {d x : Document}
    (h : x ∈ save_document docs d) : x ∈ docs ∨ x = d := by
  rw [save_document, List.mem_append] at h
  rcases h with h | h
  · exact Or.inl (List.mem_of_mem_filter h)
  · exact Or.inr (List.mem_singleton.mp h)

theorem mem_update_document_id {docs : List Document} {d x : Document}
    (h : x ∈ update_document docs d) : ∃ y ∈ docs, x.id = y.id := by
  rw [update_document, List.mem_map] at h
  rcases h with ⟨y, hy, hxy⟩
  refine ⟨y, hy, ?_⟩
  subst hxy
  by_cases hxd : y.id = d.id <;> simp [hxd]

theorem insertExtractedNodes_le (gs : GraphState) (n : Nat) (i : Nat) (nds : List NodeData) :
    n ≤ (insertExtractedNodes gs n i nds).2 := by
  rw [insertExtractedNodes]
  induction nds generalizing gs n with
  | nil => exact Nat.le_refl n
  | cons nd rest ih =>
    rw [List.foldl_cons]
    exact Nat.le_trans (Nat.le_succ n) (ih _ _)

theorem index_document_docs_shape (cv : Collab) (g : Bool) (st : PipelineState) (doc : Document) :
    st.next_id ≤ (index_document cv g st doc).1.next_id
    ∧ ∃ d2 : Document, d2.id = doc.id ∧ d2.external_id = doc.external_id
      ∧ d2.content_hash = some (cv.compute_content_hash doc.content)
      ∧ ((index_document cv g st doc).1.docs = save_document st.docs (processingDoc cv doc)
        ∨ (index_document cv g st doc).1.docs
            = update_document (save_document st.docs (processingDoc cv doc)) d2) := by
  cases hc : cv.chunk_document
      { doc with
          status := DocumentStatus.processing,
          content_hash := some (cv.compute_content_hash doc.content) } with
  | error e0 =>
    simp only [index_document, hc, indexFailure]
    cases hu : cv.update_document_ok
        { doc with
            status := DocumentStatus.failed,
            content_hash := some (cv.compute_content_hash doc.content) } with
    | false =>
      simp only [hu, Bool.false_eq_true, if_false]
      exact ⟨Nat.le_refl _,
        ⟨{ doc with
            status := DocumentStatus.failed,
            content_hash := some (cv.compute_content_hash doc.content) },
          rfl, rfl, rfl, Or.inl rfl⟩⟩
    | true =>
      simp only [hu, if_true]
      exact ⟨Nat.le_refl _,
        ⟨{ doc with
            status := DocumentStatus.failed,
            content_hash := some (cv.compute_content_hash doc.content) },
          rfl, rfl, rfl, Or.inr rfl⟩⟩
  | ok chunks0 =>
    cases hsc : cv.save_chunks_ok (chunks0.map (fun c =>
        { c with section_anchor := heading_path_to_anchor cv.nfkd c.heading_path })) with
    | false =>
      simp only [index_document, hc, hsc, Bool.not_false, if_true, indexFailure]
      cases hu : cv.update_document_ok
          { doc with
              status := DocumentStatus.failed,
              content_hash := some (cv.compute_content_hash doc.content) } with
      | false =>
        simp only [hu, Bool.false_eq_true, if_false]
        exact ⟨Nat.le_refl _,
          ⟨{ doc with
              status := DocumentStatus.failed,
              content_hash := some (cv.compute_content_hash doc.content) },
            rfl, rfl, rfl, Or.inl rfl⟩⟩
      | true =>
        simp only [hu, if_true]
        exact ⟨Nat.le_refl _,
          ⟨{ doc with
              status := DocumentStatus.failed,
              content_hash := some (cv.compute_content_hash doc.content) },
            rfl, rfl, rfl, Or.inr rfl⟩⟩
    | true =>
      cases hemb : cv.embed_chunks (chunks0.map (fun c =>
          { c with section_anchor := heading_path_to_anchor cv.nfkd c.heading_path })) with
      | error e0 =>
        simp only [index_document, hc, hsc, hemb, Bool.not_true, Bool.false_eq_true, if_false,
          indexFailure]
        cases hu : cv.update_document_ok
            { doc with
                status := DocumentStatus.failed,
                content_hash := some (cv.compute_content_hash doc.content) } with
        | false =>
          simp only [hu, Bool.false_eq_true, if_false]
          exact ⟨Nat.le_refl _,
            ⟨{ doc with
                status := DocumentStatus.failed,
                content_hash := some (cv.compute_content_hash doc.content) },
              rfl, rfl, rfl, Or.inl rfl⟩⟩
        | true =>
          simp only [hu, if_true]
          exact ⟨Nat.le_refl _,
            ⟨{ doc with
                status := DocumentStatus.failed,
                content_hash := some (cv.compute_content_hash doc.content) },
              rfl, rfl, rfl, Or.inr rfl⟩⟩
      | ok embs =>
        cases hup : cv.upsert_ok embs with
        | false =>
          simp only [index_document, hc, hsc, hemb, hup, Bool.not_true, Bool.not_false,
            Bool.false_eq_true, if_false, if_true, indexFailure]
          cases hu : cv.update_document_ok
              { doc with
                  status := DocumentStatus.failed,
                  content_hash := some (cv.compute_content_hash doc.content) } with
          | false =>
            simp only [hu, Bool.false_eq_true, if_false]
            exact ⟨Nat.le_refl _,
              ⟨{ doc with
                  status := DocumentStatus.failed,
                  content_hash := some (cv.compute_content_hash doc.content) },
                rfl, rfl, rfl, Or.inl rfl⟩⟩
          | true =>
            simp only [hu, if_true]
            exact ⟨Nat.le_refl _,
              ⟨{ doc with
                  status := DocumentStatus.failed,
                  content_hash := some (cv.compute_content_hash doc.content) },
                rfl, rfl, rfl, Or.inr rfl⟩⟩
        | true =>
          cases hex : (if g then
              cv.extract_document
                { doc with
                    status := DocumentStatus.processing,
                    content_hash := some (cv.compute_content_hash doc.content) }
                (chunks0.map (fun c =>
                  { c with section_anchor := heading_path_to_anchor cv.nfkd c.heading_path }))
            else Except.ok []) with
          | error e0 =>
            simp only [index_document, hc, hsc, hemb, hup, hex, Bool.not_true,
              Bool.false_eq_true, if_false, if_true, indexFailure]
            cases hu : cv.update_document_ok
                { doc with
                    status := DocumentStatus.failed,
                    content_hash := some (cv.compute_content_hash doc.content) } with
            | false =>
              simp only [hu, Bool.false_eq_true, if_false]
              exact ⟨Nat.le_refl _,
                ⟨{ doc with
                    status := DocumentStatus.failed,
                    content_hash := some (cv.compute_content_hash doc.content) },
                  rfl, rfl, rfl, Or.inl rfl⟩⟩
            | true =>
              simp only [hu, if_true]
              exact ⟨Nat.le_refl _,
                ⟨{ doc with
                    status := DocumentStatus.failed,
                    content_hash := some (cv.compute_content_hash doc.content) },
                  rfl, rfl, rfl, Or.inr rfl⟩⟩
          | ok nds =>
            have hgn : st.next_id ≤ (if g = true then
                insertExtractedNodes st.graph st.next_id doc.id nds
              else (st.graph, st.next_id)).2 := by
              cases g
              · exact Nat.le_refl _
              · simpa using insertExtractedNodes_le st.graph st.next_id doc.id nds
            cases hupd2 : cv.update_document_ok
                { doc with
                    status := DocumentStatus.indexed,
                    content_hash := some (cv.compute_content_hash doc.content) } with
            | true =>
              simp only [index_document, hc, hsc, hemb, hup, hex, hupd2, Bool.not_true,
                Bool.false_eq_true, if_false, if_true]
              exact ⟨hgn,
                ⟨{ doc with
                    status := DocumentStatus.indexed,
                    content_hash := some (cv.compute_content_hash doc.content) },
                  rfl, rfl, rfl, Or.inr rfl⟩⟩
            | false =>
              simp only [index_document, hc, hsc, hemb, hup, hex, hupd2, Bool.not_true,
                Bool.false_eq_true, if_false, if_true, indexFailure]
              cases hu : cv.update_document_ok
                  { doc with
                      status := DocumentStatus.failed,
                      content_hash := some (cv.compute_content_hash doc.content) } with
              | false =>
                simp only [hu, Bool.false_eq_true, if_false]
                exact ⟨hgn,
                  ⟨{ doc with
                      status := DocumentStatus.failed,
                      content_hash := some (cv.compute_content_hash doc.content) },
                    rfl, rfl, rfl, Or.inl rfl⟩⟩
              | true =>
                simp only [hu, if_true]
                exact ⟨hgn,
                  ⟨{ doc with
                      status := DocumentStatus.failed,
                      content_hash := some (cv.compute_content_hash doc.content) },
                    rfl, rfl, rfl, Or.inr rfl⟩⟩

theorem index_document_wf (cv : Collab) (g : Bool) (st : PipelineState) (doc : Document)
    (hwf : DocsWF st) (hid : doc.id < st.next_id) (hs : doc.external_id.isSome = true) :
    DocsWF (index_document cv g st doc).1 := by
  obtain ⟨hle, d2, hd2id, hd2ext, _, hdocs⟩ := index_document_docs_shape cv g st doc
  have hids : ((save_document st.docs (processingDoc cv doc)).map (fun x => x.id)).Nodup :=
    save_document_ids_nodup _ _ hwf.1
  have hexts : ((save_document st.docs (processingDoc cv doc)).filterMap
      (fun x => x.external_id)).Nodup :=
    save_document_exts_nodup _ _ hs hwf.2.1
  have hlt : ∀ x ∈ save_document st.docs (processingDoc cv doc),
      x.id < (index_document cv g st doc).1.next_id := by
    intro x hx
    rcases mem_save_document hx with hx' | rfl
    · exact Nat.lt_of_lt_of_le (hwf.2.2 x hx') hle
    · exact Nat.lt_of_lt_of_le hid hle
  rcases hdocs with hdocs | hdocs
  · exact ⟨by rw [hdocs]; exact hids, by rw [hdocs]; exact hexts,
      by rw [hdocs]; exact hlt⟩
  · refine ⟨?_, ?_, ?_⟩
    · rw [hdocs, update_document_map_id]
      exact hids
    · rw [hdocs, update_document_filterMap_ext]
      exact hexts
    · intro x hx
      rw [hdocs] at hx
      rcases mem_update_document_id hx with ⟨y, hy, hxy⟩
      rw [hxy]
      exact hlt y hy

theorem index_document_lookup_self (cv : Collab) (g : Bool) (st : PipelineState)
    (doc : Document) (e : String) (he : doc.external_id = some e) :
    ∃ r, get_document_by_external_id (index_document cv g st doc).1.docs e = some r
      ∧ r.content_hash = some (cv.compute_content_hash doc.content) := by
  obtain ⟨_, d2, hd2id, hd2ext, hd2h, hdocs⟩ := index_document_docs_shape cv g st doc
  have hsave := lookup_save_self st.docs (processingDoc cv doc) e he
  rcases hdocs with hdocs | hdocs
  · exact ⟨processingDoc cv doc, by rw [hdocs]; exact hsave, rfl⟩
  · refine ⟨{ d2 with
        id := (processingDoc cv doc).id,
        external_id := (processingDoc cv doc).external_id }, ?_, hd2h⟩
    rw [hdocs]
    exact lookup_update_self _ _ _ _ hsave (by rw [hd2id]; rfl)

theorem index_document_lookup_of_ne (cv : Collab) (g : Bool) (st : PipelineState)
    (doc : Document) (e e' : String) (r : Document)
    (he : doc.external_id = some e) (hne : ¬ e' = e)
    (h : get_document_by_external_id st.docs e' = some r) (hid : ¬ r.id = doc.id) :
    get_document_by_external_id (index_document cv g st doc).1.docs e' = some r := by
  obtain ⟨_, d2, hd2id, _, _, hdocs⟩ := index_document_docs_shape cv g st doc
  have hsave := lookup_save_of_ne st.docs (processingDoc cv doc) e e' r he hne h hid
  rcases hdocs with hdocs | hdocs
  · rw [hdocs]
    exact hsave
  · rw [hdocs]
    exact lookup_update_of_ne _ _ _ _ hsave (by rw [hd2id]; exact hid)

theorem index_document_lookup_none (cv : Collab) (g : Bool) (st : PipelineState)
    (doc : Document) (e e' : String)
    (he : doc.external_id = some e) (hne : ¬ e' = e)
    (h : get_document_by_external_id st.docs e' = none) :
    get_document_by_external_id (index_document cv g st doc).1.docs e' = none := by
  obtain ⟨_, d2, _, _, _, hdocs⟩ := index_document_docs_shape cv g st doc
  have hsave := lookup_save_none st.docs (processingDoc cv doc) e e' he hne h
  rcases hdocs with hdocs | hdocs
  · rw [hdocs]
    exact hsave
  · rw [hdocs]
    exact lookup_update_none _ _ _ hsave

theorem reindex_document_eq (cv : Collab) (g : Bool) (st : PipelineState) (doc : Document) :
    ∃ stp : PipelineState, reindex_document cv g st doc = index_document cv g stp doc
      ∧ stp.docs = st.docs ∧ stp.next_id = st.next_id := by
  cases g
  · exact ⟨_, rfl, rfl, rfl⟩
  · exact ⟨_, rfl, rfl, rfl⟩

theorem pipeline_delete_docs (cv : Collab) (g : Bool) (st : PipelineState) (doc : Document) :
    (pipeline_delete_document cv g st doc).1.docs
      = st.docs.filter (fun x => !(x.id = doc.id)) := by
  cases g <;> rfl

theorem pipeline_delete_next (cv : Collab) (g : Bool) (st : PipelineState) (doc : Document) :
    (pipeline_delete_document cv g st doc).1.next_id = st.next_id := by
  cases g <;> rfl

theorem syncDeleteStep_wf (cv : Collab) (g : Bool) (config : RepositoryConfig)
    (st : PipelineState) (p : String) (hwf : DocsWF st) :
    DocsWF (syncDeleteStep cv g config st p) := by
  rw [syncDeleteStep]
  cases hl : get_document_by_external_id st.docs (config.name ++ ":" ++ p) with
  | none => exact hwf
  | some ex =>
    refine ⟨?_, ?_, ?_⟩
    · rw [pipeline_delete_docs]
      exact List.Nodup.sublist ((List.filter_sublist st.docs).map (fun x => x.id)) hwf.1
    · rw [pipeline_delete_docs]
      exact List.Nodup.sublist
        ((List.filter_sublist st.docs).filterMap (fun x => x.external_id)) hwf.2.1
    · intro d hd
      rw [pipeline_delete_docs] at hd
      rw [pipeline_delete_next]
      exact hwf.2.2 d (List.mem_of_mem_filter hd)

theorem syncDeleteStep_lookup_none (cv : Collab) (g : Bool) (config : RepositoryConfig)
    (st : PipelineState) (p e : String)
    (h : get_document_by_external_id st.docs e = none) :
    get_document_by_external_id (syncDeleteStep cv g config st p).docs e = none := by
  rw [syncDeleteStep]
  cases hl : get_document_by_external_id st.docs (config.name ++ ":" ++ p) with
  | none => exact h
  | some ex =>
    rw [pipeline_delete_docs]
    have h0 : st.docs.find? (fun x => decide (x.external_id = some e)) = none := h
    exact find?_filter_none (fun x => decide (x.external_id = some e))
      (fun x => !(x.id = ex.id)) st.docs h0

theorem syncDeleteStep_self (cv : Collab) (g : Bool) (config : RepositoryConfig)
    (st : PipelineState) (p : String) (hwf : DocsWF st) :
    get_document_by_external_id (syncDeleteStep cv g config st p).docs
      (config.name ++ ":" ++ p) = none := by
  rw [syncDeleteStep]
  cases hl : get_document_by_external_id st.docs (config.name ++ ":" ++ p) with
  | none => exact hl
  | some ex =>
    rw [pipeline_delete_docs]
    rw [lookup_eq_none_iff]
    intro x hx hxe
    have hxmem := List.mem_of_mem_filter hx
    have hexm := mem_of_lookup hl
    have hxq : x = ex := ext_unique_of_nodup hwf.2.1 hxmem hexm.1 hxe hexm.2
    rw [List.mem_filter] at hx
    have h2 := hx.2
    rw [hxq] at h2
    simp at h2

theorem syncDelete_loop_props (cv : Collab) (g : Bool) (config : RepositoryConfig) :
    ∀ (l : List String) (st : PipelineState), DocsWF st →
      DocsWF (l.foldl (syncDeleteStep cv g config) st)
      ∧ (∀ e, get_document_by_external_id st.docs e = none →
          get_document_by_external_id (l.foldl (syncDeleteStep cv g config) st).docs e = none)
      ∧ (∀ p ∈ l, get_document_by_external_id (l.foldl (syncDeleteStep cv g config) st).docs
          (config.name ++ ":" ++ p) = none) := by
  intro l
  induction l with
  | nil =>
    intro st hwf
    exact ⟨hwf, fun e hn => hn, fun p hp => absurd hp (List.not_mem_nil p)⟩
  | cons q l ih =>
    intro st hwf
    rw [List.foldl_cons]
    obtain ⟨hA, hB, hC⟩ := ih (syncDeleteStep cv g config st q)
      (syncDeleteStep_wf cv g config st q hwf)
    refine ⟨hA, ?_, ?_⟩
    · exact fun e hn => hB e (syncDeleteStep_lookup_none cv g config st q e hn)
    · intro p hp
      rcases List.mem_cons.mp hp with rfl | hp'
      · exact hB _ (syncDeleteStep_self cv g config st p hwf)
      · exact hC p hp'

theorem syncDelete_loop_id (cv : Collab) (g : Bool) (config : RepositoryConfig) :
    ∀ (l : List String) (st : PipelineState),
      (∀ p ∈ l, get_document_by_external_id st.docs (config.name ++ ":" ++ p) = none) →
      l.foldl (syncDeleteStep cv g config) st = st := by
  intro l
  induction l with
  | nil => intro st _; rfl
  | cons q l ih =>
    intro st h
    rw [List.foldl_cons]
    have hq : syncDeleteStep cv g config st q = st := by
      rw [syncDeleteStep, h q (List.mem_cons_self q l)]
    rw [hq]
    exact ih st (fun p hp => h p (List.mem_cons_of_mem q hp))

theorem syncChangedStep_props (cv : Collab) (g : Bool) (env : ScannerEnv)
    (config : RepositoryConfig) (cc : String) (rm : Option String)
    (st : PipelineState) (i k : Nat) (q : String) (hwf : DocsWF st) :
    DocsWF (syncChangedStep cv g env config cc rm (st, i, k) q).1
    ∧ HashOk cv env config (syncChangedStep cv g env config cc rm (st, i, k) q).1 q
    ∧ (∀ p, HashOk cv env config st p →
        HashOk cv env config (syncChangedStep cv g env config cc rm (st, i, k) q).1 p)
    ∧ (∀ e, (¬ e = config.name ++ ":" ++ q ∨ env.read_file q = none) →
        get_document_by_external_id st.docs e = none →
        get_document_by_external_id
          (syncChangedStep cv g env config cc rm (st, i, k) q).1.docs e = none) := by
  cases hread : env.read_file q with
  | none =>
    have hstep : syncChangedStep cv g env config cc rm (st, i, k) q = (st, i, k) := by
      simp only [syncChangedStep, hread]
    rw [hstep]
    refine ⟨hwf, ?_, fun p hp => hp, fun e _ hn => hn⟩
    simp only [HashOk, hread]
  | some content =>
    cases hlook : get_document_by_external_id st.docs (config.name ++ ":" ++ q) with
    | some existing =>
      by_cases hhash : existing.content_hash = some (cv.compute_content_hash content)
      · have hstep : syncChangedStep cv g env config cc rm (st, i, k) q = (st, i, k + 1) := by
          simp only [syncChangedStep, hread, hlook, if_pos hhash]
        rw [hstep]
        refine ⟨hwf, ?_, fun p hp => hp, fun e _ hn => hn⟩
        simp only [HashOk, hread]
        exact ⟨existing, hlook, hhash⟩
      · obtain ⟨stp, heq, hpdocs, hpnext⟩ := reindex_document_eq cv g st
          (docFromFile cv env config existing.id q content cc rm)
        have hstep : (syncChangedStep cv g env config cc rm (st, i, k) q).1
            = (reindex_document cv g st
                (docFromFile cv env config existing.id q content cc rm)).1 := by
          simp only [syncChangedStep, hread, hlook, if_neg hhash]
          cases (reindex_document cv g st
              (docFromFile cv env config existing.id q content cc rm)).2 <;> rfl
        rw [hstep, heq]
        have hwfp : DocsWF stp := by
          refine ⟨?_, ?_, ?_⟩
          · rw [hpdocs]
            exact hwf.1
          · rw [hpdocs]
            exact hwf.2.1
          · intro d hd
            rw [hpdocs] at hd
            rw [hpnext]
            exact hwf.2.2 d hd
        have hexm := mem_of_lookup hlook
        have hidlt : (docFromFile cv env config existing.id q content cc rm).id
            < stp.next_id := by
          rw [hpnext]
          exact hwf.2.2 existing hexm.1
        have hq2 : HashOk cv env config
            (index_document cv g stp
              (docFromFile cv env config existing.id q content cc rm)).1 q := by
          simp only [HashOk, hread]
          obtain ⟨r, hr, hh⟩ := index_document_lookup_self cv g stp
            (docFromFile cv env config existing.id q content cc rm)
            (config.name ++ ":" ++ q) rfl
          exact ⟨r, hr, hh⟩
        refine ⟨index_document_wf cv g stp _ hwfp hidlt rfl, hq2, ?_, ?_⟩
        · intro p hp
          simp only [HashOk] at hp ⊢
          cases hrp : env.read_file p with
          | none => simp only [hrp]
          | some cp =>
            simp only [hrp] at hp ⊢
            obtain ⟨r, hr, hh⟩ := hp
            by_cases hpe : config.name ++ ":" ++ p = config.name ++ ":" ++ q
            · have hpq : p = q := extId_inj _ _ _ hpe
              subst hpq
              have hcc : cp = content := by
                rw [hread] at hrp
                exact (Option.some.inj hrp).symm
              rw [hcc]
              have hq2' := hq2
              simp only [HashOk, hread] at hq2'
              exact hq2'
            · refine ⟨r, ?_, hh⟩
              refine index_document_lookup_of_ne cv g stp _ _ _ r rfl hpe ?_ ?_
              · rw [hpdocs]
                exact hr
              · intro hcon
                have hrmem := mem_of_lookup hr
                have hrex : r = existing := doc_id_inj hwf.1 hrmem.1 hexm.1 hcon
                apply hpe
                have h2 : some (config.name ++ ":" ++ p)
                    = some (config.name ++ ":" ++ q) := by
                  rw [← hrmem.2, hrex, hexm.2]
                exact Option.some.inj h2
        · intro e hne hn
          have hne' : ¬ e = config.name ++ ":" ++ q := by
            rcases hne with hne | hcon
            · exact hne
            · cases hcon
          refine index_document_lookup_none cv g stp _ _ e rfl hne' ?_
          rw [hpdocs]
          exact hn
    | none =>
      have hstep : (syncChangedStep cv g env config cc rm (st, i, k) q).1
          = (index_document cv g { st with next_id := st.next_id + 1 }
              (docFromFile cv env config st.next_id q content cc rm)).1 := by
        simp only [syncChangedStep, hread, hlook]
        cases (index_document cv g { st with next_id := st.next_id + 1 }
            (docFromFile cv env config st.next_id q content cc rm)).2 <;> rfl
      rw [hstep]
      have hwfN : DocsWF { st with next_id := st.next_id + 1 } :=
        ⟨hwf.1, hwf.2.1, fun d hd => Nat.lt_succ_of_lt (hwf.2.2 d hd)⟩
      have hq2 : HashOk cv env config
          (index_document cv g { st with next_id := st.next_id + 1 }
            (docFromFile cv env config st.next_id q content cc rm)).1 q := by
        simp only [HashOk, hread]
        obtain ⟨r, hr, hh⟩ := index_document_lookup_self cv g
          { st with next_id := st.next_id + 1 }
          (docFromFile cv env config st.next_id q content cc rm)
          (config.name ++ ":" ++ q) rfl
        exact ⟨r, hr, hh⟩
      refine ⟨index_document_wf cv g _ _ hwfN (Nat.lt_succ_self _) rfl, hq2, ?_, ?_⟩
      · intro p hp
        simp only [HashOk] at hp ⊢
        cases hrp : env.read_file p with
        | none => simp only [hrp]
        | some cp =>
          simp only [hrp] at hp ⊢
          obtain ⟨r, hr, hh⟩ := hp
          by_cases hpe : config.name ++ ":" ++ p = config.name ++ ":" ++ q
          · have hpq : p = q := extId_inj _ _ _ hpe
            subst hpq
            have hcc : cp = content := by
              rw [hread] at hrp
              exact (Option.some.inj hrp).symm
            rw [hcc]
            have hq2' := hq2
            simp only [HashOk, hread] at hq2'
            exact hq2'
          · refine ⟨r, ?_, hh⟩
            refine index_document_lookup_of_ne cv g { st with next_id := st.next_id + 1 }
              _ _ _ r rfl hpe ?_ ?_
            · exact hr
            · intro hcon
              have hrmem := mem_of_lookup hr
              exact Nat.ne_of_lt (hwf.2.2 r hrmem.1) hcon
      · intro e hne hn
        have hne' : ¬ e = config.name ++ ":" ++ q := by
          rcases hne with hne | hcon
          · exact hne
          · cases hcon
        exact index_document_lookup_none cv g { st with next_id := st.next_id + 1 }
          _ _ e rfl hne' hn

theorem syncChanged_loop_props (cv : Collab) (g : Bool) (env : ScannerEnv)
    (config : RepositoryConfig) (cc : String) (rm : Option String) :
    ∀ (l : List String) (st : PipelineState) (i k : Nat), DocsWF st →
      DocsWF (l.foldl (syncChangedStep cv g env config cc rm) (st, i, k)).1
      ∧ (∀ p ∈ l, HashOk cv env config
          (l.foldl (syncChangedStep cv g env config cc rm) (st, i, k)).1 p)
      ∧ (∀ p, HashOk cv env config st p →
          HashOk cv env config
            (l.foldl (syncChangedStep cv g env config cc rm) (st, i, k)).1 p)
      ∧ (∀ e, (∀ p ∈ l, ¬ e = config.name ++ ":" ++ p ∨ env.read_file p = none) →
          get_document_by_external_id st.docs e = none →
          get_document_by_external_id
            (l.foldl (syncChangedStep cv g env config cc rm) (st, i, k)).1.docs e = none) := by
  intro l
  induction l with
  | nil =>
    intro st i k hwf
    exact ⟨hwf, fun p hp => absurd hp (List.not_mem_nil p), fun p hp => hp,
      fun e _ hn => hn⟩
  | cons q l ih =>
    intro st i k hwf
    rw [List.foldl_cons]
    obtain ⟨h1, h2, h3, h4⟩ := syncChangedStep_props cv g env config cc rm st i k q hwf
    obtain ⟨hA, hB, hC, hD⟩ := ih (syncChangedStep cv g env config cc rm (st, i, k) q).1
      (syncChangedStep cv g env config cc rm (st, i, k) q).2.1
      (syncChangedStep cv g env config cc rm (st, i, k) q).2.2 h1
    refine ⟨hA, ?_, ?_, ?_⟩
    · intro p hp
      rcases List.mem_cons.mp hp with rfl | hp'
      · exact hC p h2
      · exact hB p hp'
    · exact fun p hp => hC p (h3 p hp)
    · intro e hne hn
      exact hD e (fun p hp => hne p (List.mem_cons_of_mem q hp))
        (h4 e (hne q (List.mem_cons_self q l)) hn)

theorem syncChangedStep_skip (cv : Collab) (g : Bool) (env : ScannerEnv)
    (config : RepositoryConfig) (cc : String) (rm : Option String)
    (st : PipelineState) (i k : Nat) (p content : String) (existing : Document)
    (h1 : env.read_file p = some content)
    (h2 : get_document_by_external_id st.docs (config.name ++ ":" ++ p) = some existing)
    (h3 : existing.content_hash = some (cv.compute_content_hash content)) :
    syncChangedStep cv g env config cc rm (st, i, k) p = (st, i, k + 1) := by
  simp only [syncChangedStep, h1, h2, if_pos h3]

theorem syncChanged_loop_skip (cv : Collab) (g : Bool) (env : ScannerEnv)
    (config : RepositoryConfig) (cc : String) (rm : Option String) :
    ∀ (l : List String) (st : PipelineState) (i k : Nat),
      (∀ p ∈ l, HashOk cv env config st p) →
      ∃ k2, l.foldl (syncChangedStep cv g env config cc rm) (st, i, k) = (st, i, k2) := by
  intro l
  induction l with
  | nil => intro st i k _; exact ⟨k, rfl⟩
  | cons q l ih =>
    intro st i k h
    rw [List.foldl_cons]
    have hq := h q (List.mem_cons_self q l)
    cases hr : env.read_file q with
    | none =>
      have hstep : syncChangedStep cv g env config cc rm (st, i, k) q = (st, i, k) := by
        simp only [syncChangedStep, hr]
      rw [hstep]
      exact ih st i k (fun p hp => h p (List.mem_cons_of_mem q hp))
    | some content =>
      simp only [HashOk, hr] at hq
      obtain ⟨r, hrl, hrh⟩ := hq
      rw [syncChangedStep_skip cv g env config cc rm st i k q content r hr hrl hrh]
      exact ih st i (k + 1) (fun p hp => h p (List.mem_cons_of_mem q hp))

/-- C1: incremental sync is idempotent — starting from a well-formed
document store, and given that the files git reports deleted since the
base commit are absent from the working tree (their `read_file` fails, as
is the case in every repository state git can report: `git diff
--name-only` also lists deleted paths among the changed files, and the
loop skips them when the read raises), running `sync_repository` twice in
a row against an unchanged repository yields `indexed = 0` on the second
call; the mechanism is the specified one: a changed file whose existing
document's stored `content_hash` equals the hash newly computed from the
file's content is counted as skipped and triggers no further indexing
work (the state is left untouched). -/
theorem kb_c1_sync_idempotence (cv : Collab) (g : Bool) (env : ScannerEnv)
    (config : RepositoryConfig) (since_commit : String) (st : PipelineState)
    (hwf : DocsWF st)
    (hdel : ∀ p ∈ get_deleted_files env config since_commit, env.read_file p = none) :
    (sync_repository cv g env config since_commit
        (sync_repository cv g env config since_commit st).1).2.indexed = 0
    ∧ ∀ (st2 : PipelineState) (i k : Nat) (p content : String) (existing : Document),
        env.read_file p = some content →
        get_document_by_external_id st2.docs (config.name ++ ":" ++ p) = some existing →
        existing.content_hash = some (cv.compute_content_hash content) →
        syncChangedStep cv g env config env.current_commit env.remote_origin (st2, i, k) p
          = (st2, i, k + 1) := by
  constructor
  · obtain ⟨hwf1, hB1, hC1⟩ := syncDelete_loop_props cv g config
      (get_deleted_files env config since_commit) st hwf
    obtain ⟨hwfA, hHash, hPres, hNone⟩ := syncChanged_loop_props cv g env config
      env.current_commit env.remote_origin (get_changed_files env config since_commit)
      ((get_deleted_files env config since_commit).foldl (syncDeleteStep cv g config) st) 0 0
      hwf1
    have hnoneA : ∀ p ∈ get_deleted_files env config since_commit,
        get_document_by_external_id
          ((get_changed_files env config since_commit).foldl
            (syncChangedStep cv g env config env.current_commit env.remote_origin)
            ((get_deleted_files env config since_commit).foldl (syncDeleteStep cv g config) st,
              0, 0)).1.docs
          (config.name ++ ":" ++ p) = none := by
      intro p hp
      refine hNone (config.name ++ ":" ++ p) ?_ (hC1 p hp)
      intro q hq
      by_cases hpq : p = q
      · subst hpq
        exact Or.inr (hdel p hp)
      · refine Or.inl ?_
        intro hcon
        exact hpq (extId_inj _ _ _ hcon)
    have hid2 := syncDelete_loop_id cv g config (get_deleted_files env config since_commit)
      ((get_changed_files env config since_commit).foldl
        (syncChangedStep cv g env config env.current_commit env.remote_origin)
        ((get_deleted_files env config since_commit).foldl (syncDeleteStep cv g config) st,
          0, 0)).1 hnoneA
    obtain ⟨k2, hk⟩ := syncChanged_loop_skip cv g env config env.current_commit
      env.remote_origin (get_changed_files env config since_commit)
      ((get_changed_files env config since_commit).foldl
        (syncChangedStep cv g env config env.current_commit env.remote_origin)
        ((get_deleted_files env config since_commit).foldl (syncDeleteStep cv g config) st,
          0, 0)).1 0 0 hHash
    simp only [sync_repository]
    rw [hid2, hk]
  · intro st2 i k p content existing h1 h2 h3
    exact syncChangedStep_skip cv g env config env.current_commit env.remote_origin
      st2 i k p content existing h1 h2 h3

/-- C1 witness: the idempotence theorem instantiated at a concrete
environment (one readable changed markdown file, nothing deleted, empty
initial store), with both hypotheses discharged concretely. -/
theorem kb_c1_witness :
    DocsWF {}
    ∧ (∀ p ∈ get_deleted_files syncEnvW syncConfigW "c0",
        syncEnvW.read_file p = none)
    ∧ ((sync_repository {} false syncEnvW syncConfigW "c0"
          (sync_repository {} false syncEnvW syncConfigW "c0" {}).1).2.indexed = 0
      ∧ ∀ (st2 : PipelineState) (i k : Nat) (p content : String) (existing : Document),
          syncEnvW.read_file p = some content →
          get_document_by_external_id st2.docs (syncConfigW.name ++ ":" ++ p)
            = some existing →
          existing.content_hash = some (Collab.compute_content_hash {} content) →
          syncChangedStep {} false syncEnvW syncConfigW syncEnvW.current_commit
            syncEnvW.remote_origin (st2, i, k) p = (st2, i, k + 1)) := by
  have hwf : DocsWF {} :=
    ⟨List.nodup_nil, List.nodup_nil, fun d hd => absurd hd (List.not_mem_nil d)⟩
  have hdel : ∀ p ∈ get_deleted_files syncEnvW syncConfigW "c0",
      syncEnvW.read_file p = none := by decide
  exact ⟨hwf, hdel, kb_c1_sync_idempotence {} false syncEnvW syncConfigW "c0" {} hwf hdel⟩

end KB
